import Mathlib

/-!
Shallow embedding of `sqlglot/expressions.py`, the AST core of the sqlglot SQL
transpiler: the generic `Expression` node model, traversal (`walk`, `bfs`,
`dfs`, `find`, `find_all`), structural equality and hashing with the `Column`
and `Literal` overrides, the whole-tree `transform` rewrite, the `depth` and
`parent` weak-reference behaviour, and the function argument binder
`Func.from_arg_list`.

Machine model used throughout:

* A node's `args` dict is modelled as an association list `List (String × Val)`
  in insertion order (Python dicts preserve insertion order). Key uniqueness,
  which Python dicts guarantee, is captured by the `nodupArgs` well-formedness
  predicate and assumed only where a proof needs it.
* Python object identity is modelled by an `eid : Nat` tag on every node;
  `deepcopy` allocates fresh tags from a counter; mutating "the object with
  identity i" is modelled by `mutAtE`, which rewrites every node carrying tag
  `i` (same tag = same object).
* Python `hash(x)` is modelled by the structured value the code passes to the
  built-in `hash`, rendered as an injective string encoding (`pyHashE`): two
  objects are guaranteed equal Python hashes exactly when their hash inputs
  are equal.
* Tokens (`sqlglot.tokens.Token`, a collaborator outside this source file) are
  modelled structurally as a text plus a token-type name, following the spec:
  "Literal wraps a token; exposes text and token kind".
* Where the Python code would raise an exception the embedding returns an
  `Except` error (`transform`) or a documented total default (attribute access
  on malformed nodes); each such spot is noted at its definition.
-/

/-- The node variants ("classes") of the taxonomy that this development needs:
the generic base `Expression`, the two variants overriding equality and
hashing (`Column`, `Literal`), and two `Func` variants exercised by the binder
claims (`Map`: fixed arity 2; `Coalesce`: variable length). The binder itself
is additionally parameterised over an arbitrary schema, since
`Func.from_arg_list` reads nothing of the class beyond `cls.arg_types` and
`cls.is_var_len_args`. -/
inductive EKind where
  | expression
  | column
  | literal
  | map
  | coalesce
deriving DecidableEq, Repr

/-- `self.key = self.__class__.__name__.lower()` (set in `Expression.__init__`). -/
def kindKey : EKind → String
  | .expression => "expression"
  | .column => "column"
  | .literal => "literal"
  | .map => "map"
  | .coalesce => "coalesce"

/-- The declared `arg_types` schema of each modelled class, in declaration
order, with the required/optional flag. `Literal` does not declare its own
`arg_types`, so it inherits `Expression.arg_types`, which binds `this` as
required; `Column` and the `Func` variants declare their own. -/
def argTypesOf : EKind → List (String × Bool)
  | .expression => [("this", true)]
  | .column => [("this", false), ("table", false), ("db", false), ("fields", false)]
  | .literal => [("this", true)]
  | .map => [("keys", true), ("values", true)]
  | .coalesce => [("this", true), ("expressions", false)]

/-- The `is_var_len_args` class attribute: `False` on `Func`, overridden to
`True` on `Coalesce` (and the other variadic functions). -/
def isVarLenArgsOf : EKind → Bool
  | .coalesce => true
  | _ => false

/-- A token object: carries `.text` and `.token_type`, modelled structurally. -/
structure Token where
  text : String
  ttype : String
deriving DecidableEq, Repr

mutual
/-- A Python value that can sit in an `args` slot or inside a list slot:
`None`, a string scalar, a `Token`, an `Expression` node, or a Python list. -/
inductive Val where
  | vNone : Val
  | vStr : String → Val
  | vTok : Token → Val
  | vExpr : Expr → Val
  | vList : List Val → Val

/-- An `Expression` instance: its class (`kind`), its object identity tag
(`eid`, see the machine model above), and its `args` dict in insertion
order. The `_parent` weak reference is not stored in the tree value; parent
chains are modelled separately by `PChain` for the `depth`/`parent` claims,
and `transform`'s parent re-attachment is a no-op on the tree value. -/
inductive Expr where
  | mk : EKind → Nat → List (String × Val) → Expr
end

def Expr.kind : Expr → EKind
  | .mk k _ _ => k

def Expr.eid : Expr → Nat
  | .mk _ i _ => i

def Expr.args : Expr → List (String × Val)
  | .mk _ _ a => a

/-- `Expression.key` (the lowercased class name of the instance). -/
def Expr.key (e : Expr) : String := kindKey e.kind

/-- Python dict `.get(k)` on the `args` mapping (first binding wins; a
well-formed dict has unique keys). -/
def lookupArg (a : List (String × Val)) (k : String) : Option Val :=
  match a with
  | [] => none
  | (k2, v) :: r => if k2 == k then some v else lookupArg r k

/-- Modelled from the spec: the helper `sqlglot.helper.ensure_list` (its
source file is not part of this repository), described as a "scalar-to-
sequence coercion utility (wrap a bare value as a one-element sequence for
uniform maybe-list slot iteration)". -/
def ensure_list : Val → List Val
  | .vList l => l
  | v => [v]

/-- `_token_arg_text(expression, kind)`: `arg.text if arg else None` on
`expression.args.get(kind)`. A missing key or a `None` value (falsy) yields
`None`; a token yields its text. Python would raise `AttributeError` on a
non-token truthy value; the embedding returns `none` there, and no claim
instantiates that malformed shape. -/
def token_arg_text (e : Expr) (kind : String) : Option String :=
  match lookupArg e.args kind with
  | some (.vTok t) => some t.text
  | _ => none

/-- `Column.name`. -/
def Expr.colName (e : Expr) : Option String := token_arg_text e "this"

/-- `Column.table`. -/
def Expr.colTable (e : Expr) : Option String := token_arg_text e "table"

/-- `Column.db`. -/
def Expr.colDb (e : Expr) : Option String := token_arg_text e "db"

/-- `Column.fields`: the texts of the token sequence under `fields`, or `[]`
when the slot is missing, `None`, or an empty list (all falsy). A non-token
list element would raise in Python; the embedding renders it as `""`, and no
claim instantiates that shape. -/
def Expr.colFields (e : Expr) : List String :=
  match lookupArg e.args "fields" with
  | some (.vList l) =>
      l.map (fun v =>
        match v with
        | .vTok t => t.text
        | _ => "")
  | _ => []

/-- `Literal.token`: `self.args.get("this")`. -/
def Expr.litToken (e : Expr) : Option Val := lookupArg e.args "this"

/-- `Literal.text`: `_token_arg_text(self, "this")`. -/
def Expr.litText (e : Expr) : Option String := token_arg_text e "this"

/-- `Literal`'s `self.token.token_type`: the kind of the wrapped token.
Python raises `AttributeError` when the token is absent; the embedding
returns `none` there, and no claim instantiates a tokenless literal. -/
def Expr.litTokenType (e : Expr) : Option String :=
  match lookupArg e.args "this" with
  | some (.vTok t) => some t.ttype
  | _ => none

/-- Python `str.upper()` (ASCII case mapping, which covers SQL identifier
case-folding as used by `Column`). -/
def pyUpper (s : String) : String := String.mk (s.data.map Char.toUpper)

/-- `(s or "").upper()` applied to an optional text. -/
def upperOr (s : Option String) : String := pyUpper (s.getD "")

/-- `Column.__eq__`: case-insensitive comparison of name, table, db and the
field texts, after an `isinstance(other, Column)` check (no class in the file
subclasses `Column`, so the check is a kind test). -/
def columnEqB (x y : Expr) : Bool :=
  (y.kind == .column)
    && (upperOr x.colName == upperOr y.colName)
    && (upperOr x.colTable == upperOr y.colTable)
    && (upperOr x.colDb == upperOr y.colDb)
    && (x.colFields.map pyUpper == y.colFields.map pyUpper)

/-- `Literal.__eq__`: `isinstance(other, Literal)`, equal `text`, and equal
`token.token_type` of the wrapped tokens. -/
def literalEqB (x y : Expr) : Bool :=
  (y.kind == .literal)
    && (x.litText == y.litText)
    && (x.litTokenType == y.litTokenType)

mutual
/-- Python `==` on two `Expression` objects, dispatched on the class of the
left operand: `Column.__eq__` and `Literal.__eq__` override the generic
`Expression.__eq__`, which is `type(self) is type(other) and
self.args == other.args`. -/
def pyEqE : Expr → Expr → Bool
  | x@(.mk .column _ _), y => columnEqB x y
  | x@(.mk .literal _ _), y => literalEqB x y
  | .mk k _ a, .mk k2 _ b =>
      (k == k2) && pyArgsSub a b && b.all (fun p => (lookupArg a p.1).isSome)
termination_by structural x _ => x

/-- Python `==` on two `args` values (`None`, strings, tokens, nodes, lists);
tokens are compared structurally per the machine model. -/
def pyValEq : Val → Val → Bool
  | .vNone, .vNone => true
  | .vStr s, .vStr t => s == t
  | .vTok s, .vTok t => s == t
  | .vExpr a, .vExpr b => pyEqE a b
  | .vList l, .vList m => pyListEq l m
  | _, _ => false
termination_by structural v _ => v

/-- One half of Python dict equality: every binding of `a` is matched, via
lookup, by an equal value in `b`. Together with the key-inclusion check the
other way (see `pyEqE`) this is dict `==` on maps with unique keys. -/
def pyArgsSub : List (String × Val) → List (String × Val) → Bool
  | [], _ => true
  | (k, v) :: r, b =>
      (match lookupArg b k with
       | some w => pyValEq v w
       | none => false)
        && pyArgsSub r b
termination_by structural l _ => l

/-- Python `==` on two lists: equal length and pairwise equal elements. -/
def pyListEq : List Val → List Val → Bool
  | [], [] => true
  | a :: l, b :: m => pyValEq a b && pyListEq l m
  | _, _ => false
termination_by structural l _ => l
end

example : pyEqE (.mk .column 3 [("this", .vTok ⟨"Foo", "VAR"⟩)])
    (.mk .column 9 [("this", .vTok ⟨"fOO", "VAR"⟩)]) = true := rfl

example : pyEqE (.mk .expression 3 [("this", .vStr "x")])
    (.mk .expression 9 [("this", .vStr "x")]) = true := rfl

/-- Escape a character for the injective string rendering of hash inputs. -/
def escChar (c : Char) : List Char :=
  if c = '"' || c = '\\' then ['\\', c] else [c]

/-- Quote a string for the injective rendering of hash inputs. -/
def quoteStr (s : String) : String :=
  String.mk ('"' :: s.data.foldr (fun c acc => escChar c ++ acc) ['"'])

/-- Render a Python tuple of already-rendered hash components. -/
def hashTup (elems : List String) : String :=
  "(" ++ String.intercalate "," elems ++ ")"

/-- Render an optional text the way `hash` sees it (`None` or the string). -/
def hashOptStr : Option String → String
  | none => "None"
  | some s => quoteStr s

mutual
/-- The structured input `Expression.__hash__` passes to Python's built-in
`hash`, rendered injectively as a string (see the machine model): two nodes
are guaranteed equal Python hashes exactly when these renderings coincide.
Dispatch follows the class: `Column.__hash__` hashes the key and the
upper-cased name, table, db and fields; `Literal.__hash__` hashes the key,
the text, and `self.token_type`, which resolves to the class attribute
`Expression.token_type = None` (not the wrapped token's kind); the generic
`Expression.__hash__` hashes the key together with the tuple of
(arg key, value) pairs in dict insertion order, converting list slots to
tuples. -/
def pyHashE : Expr → String
  | x@(.mk .column _ _) =>
      hashTup [quoteStr x.key, quoteStr (upperOr x.colName),
        quoteStr (upperOr x.colTable), quoteStr (upperOr x.colDb),
        hashTup (x.colFields.map (fun f => quoteStr (pyUpper f)))]
  | x@(.mk .literal _ _) =>
      hashTup [quoteStr x.key, hashOptStr x.litText, "None"]
  | x@(.mk _ _ a) =>
      hashTup [quoteStr x.key, hashTup (pyHashArgs a)]
termination_by structural x => x

/-- The rendered `(k, tuple(v) if isinstance(v, list) else v)` pairs. -/
def pyHashArgs : List (String × Val) → List String
  | [] => []
  | (k, v) :: rest => hashTup [quoteStr k, pyHashSlot v] :: pyHashArgs rest
termination_by structural l => l

/-- One slot as hashed by the generic `__hash__`: a list slot becomes a tuple
of its elements, anything else is hashed directly (the non-list cases repeat
`pyHashV`; they are spelled out so the recursion stays structural). -/
def pyHashSlot : Val → String
  | .vList l => "T" ++ hashTup (pyHashList l)
  | .vNone => "None"
  | .vStr s => quoteStr s
  | .vTok t => "Tok" ++ hashTup [quoteStr t.text, quoteStr t.ttype]
  | .vExpr e => pyHashE e
termination_by structural v => v

/-- One value as hashed inside the tuple: `None`, a string, a token (hashed
structurally per the machine model), or a node via its own `__hash__`. A
bare list nested inside a list slot is unhashable in Python (`TypeError`);
the embedding renders it as a marker, and no claim instantiates that shape. -/
def pyHashV : Val → String
  | .vNone => "None"
  | .vStr s => quoteStr s
  | .vTok t => "Tok" ++ hashTup [quoteStr t.text, quoteStr t.ttype]
  | .vExpr e => pyHashE e
  | .vList _ => "unhashable"
termination_by structural v => v

/-- Elements of a list slot, rendered in order. -/
def pyHashList : List Val → List String
  | [] => []
  | v :: rest => pyHashV v :: pyHashList rest
termination_by structural l => l
end

example : pyHashE (.mk .column 3 [("this", .vTok ⟨"Foo", "VAR"⟩)])
    = pyHashE (.mk .column 9 [("this", .vTok ⟨"fOO", "VAR"⟩)]) := rfl

/-- The fixed-key loop of `Func.from_arg_list`: walk the non-variadic schema
keys in declaration order, consuming one positional value per key (`arg_idx`
advances whether or not the value is bound), binding the key only when the
value `is not None`, and stopping when the input is exhausted. Returns the
bindings made, in insertion order, and the unconsumed tail of the input. -/
def bindFixed : List String → List Val → List (String × Val) × List Val
  | [], args => ([], args)
  | _ :: _, [] => ([], [])
  | k :: ks, a :: rest =>
      let (d, r) := bindFixed ks rest
      (match a with
       | .vNone => d
       | _ => (k, a) :: d, r)

/-- `Func.from_arg_list(cls, args)`, parameterised by the two class facts it
reads: the schema keys `list(cls.arg_types)` in declaration order and
`cls.is_var_len_args`. If variadic, all keys but the last are fixed-arity;
after the fixed loop, a non-empty remainder is bound, as one list, to the
last schema key (`all_arg_keys[-1]`, an `IndexError` — `none` here — on an
empty schema, a shape no declared variant has). -/
def from_arg_list (all_arg_keys : List String) (is_var_len : Bool)
    (args : List Val) : Option (List (String × Val)) :=
  let non_var_len_arg_keys := if is_var_len then all_arg_keys.dropLast else all_arg_keys
  let (args_dict, rest) := bindFixed non_var_len_arg_keys args
  if is_var_len && !rest.isEmpty then
    match all_arg_keys.getLast? with
    | some k => some (args_dict ++ [(k, .vList rest)])
    | none => none
  else some args_dict

/-- `cls.from_arg_list(args)` for a modelled variant: bind and construct the
instance (`cls(**args_dict)`; the fresh object's identity tag is 0). -/
def from_arg_listK (k : EKind) (args : List Val) : Option Expr :=
  (from_arg_list ((argTypesOf k).map Prod.fst) (isVarLenArgsOf k) args).map
    (fun d => .mk k 0 d)

example : from_arg_listK .coalesce [.vStr "a", .vStr "b", .vStr "c"]
    = some (.mk .coalesce 0 [("this", .vStr "a"), ("expressions", .vList [.vStr "b", .vStr "c"])]) := rfl

example : from_arg_listK .map [.vStr "a", .vStr "b", .vStr "c"]
    = some (.mk .map 0 [("keys", .vStr "a"), ("values", .vStr "b")]) := rfl

/-- A triple yielded by the traversals: `(item, parent, arg key)`. The item
is any Python value (non-node leaves are yielded too); the root triple
carries the receiver's resolved parent and key `None`. -/
abbrev Entry := Val × Option Expr × Option String

mutual
/-- Traversal size of one `Expression`: itself plus everything its slots can
put on a work queue. Used as the termination measure of `bfs`. -/
def qsizeE : Expr → Nat
  | .mk _ _ args => 1 + qsizeArgs args
termination_by structural e => e

def qsizeArgs : List (String × Val) → Nat
  | [] => 0
  | (_, v) :: r => qsizeSlot v + qsizeArgs r
termination_by structural l => l

/-- Total size of the queue items one slot contributes (`ensure_list` view:
a list slot contributes its elements, anything else contributes itself). -/
def qsizeSlot : Val → Nat
  | .vList l => qsizeList l
  | .vExpr e => qsizeE e
  | _ => 1
termination_by structural v => v

def qsizeList : List Val → Nat
  | [] => 0
  | v :: r => qsizeV v + qsizeList r
termination_by structural l => l

/-- Size of one queue item: a node counts its whole subtree, anything else
(including a nested bare list, which is yielded but never expanded) is 1. -/
def qsizeV : Val → Nat
  | .vExpr e => qsizeE e
  | _ => 1
termination_by structural v => v
end

/-- Total traversal size of a queue of entries. -/
def qsum (q : List Entry) : Nat := (q.map (fun ent => qsizeV ent.1)).sum

/-- The child entries pushed for one popped node, slot by slot in dict
insertion order: `for k, v in item.args.items(): for node in ensure_list(v):
queue.append((node, item, k))`. -/
def childEntriesAux (owner : Expr) : List (String × Val) → List Entry
  | [] => []
  | (k, v) :: rest =>
      (ensure_list v).map (fun n => (n, some owner, some k)) ++ childEntriesAux owner rest

def childEntries (owner : Expr) : List Entry := childEntriesAux owner owner.args

theorem qsizeV_pos (v : Val) : 1 ≤ qsizeV v := by
  cases v with
  | vExpr e => cases e with
    | mk k i args => simp [qsizeV, qsizeE]
  | vNone => simp [qsizeV]
  | vStr s => simp [qsizeV]
  | vTok t => simp [qsizeV]
  | vList l => simp [qsizeV]

theorem qsum_append (a b : List Entry) : qsum (a ++ b) = qsum a + qsum b := by
  simp [qsum]

theorem qsizeList_eq_sum (l : List Val) :
    qsizeList l = (l.map qsizeV).sum := by
  induction l with
  | nil => simp [qsizeList]
  | cons v r ih => simp [qsizeList, ih]

theorem qsum_map_entries (l : List Val) (owner : Expr) (k : String) :
    qsum (l.map (fun n => (n, some owner, some k))) = (l.map qsizeV).sum := by
  induction l with
  | nil => rfl
  | cons v r ih =>
      simp only [List.map_cons, List.sum_cons, qsum] at ih ⊢
      rw [ih]

theorem qsum_ensure_list (v : Val) (owner : Expr) (k : String) :
    qsum ((ensure_list v).map (fun n => (n, some owner, some k))) = qsizeSlot v := by
  cases v with
  | vList l => simp [ensure_list, qsum_map_entries, qsizeSlot, qsizeList_eq_sum]
  | vExpr e => simp [ensure_list, qsum, qsizeSlot, qsizeV]
  | vNone => simp [ensure_list, qsum, qsizeSlot, qsizeV]
  | vStr s => simp [ensure_list, qsum, qsizeSlot, qsizeV]
  | vTok t => simp [ensure_list, qsum, qsizeSlot, qsizeV]

theorem qsum_childEntriesAux (owner : Expr) (args : List (String × Val)) :
    qsum (childEntriesAux owner args) = qsizeArgs args := by
  induction args with
  | nil => simp [childEntriesAux, qsum, qsizeArgs]
  | cons p rest ih =>
      obtain ⟨k, v⟩ := p
      rw [childEntriesAux, qsum_append, ih, qsum_ensure_list, qsizeArgs]

/-- The entries pushed when an item is removed: a node pushes its child
entries, a non-node item pushes nothing (`isinstance(item, Expression)`). -/
def pushedFor (item : Val) : List Entry :=
  match item with
  | .vExpr n => childEntries n
  | _ => []

theorem qsum_pushedFor_lt (item : Val) : qsum (pushedFor item) < qsizeV item := by
  cases item with
  | vExpr n =>
      cases n with
      | mk k i args =>
          have h1 : qsum (childEntries (Expr.mk k i args)) = qsizeArgs args := by
            simpa [childEntries, Expr.args] using qsum_childEntriesAux (Expr.mk k i args) args
          simp only [pushedFor, qsizeV, qsizeE, h1]
          omega
  | vNone => simp [pushedFor, qsum, qsizeV]
  | vStr s => simp [pushedFor, qsum, qsizeV]
  | vTok t => simp [pushedFor, qsum, qsizeV]
  | vList l => simp [pushedFor, qsum, qsizeV]

/-- `Expression.bfs`, the work loop: an explicit queue seeded with the root
triple, repeatedly popping from the tail (`queue.pop()`), yielding the popped
triple, and appending the popped node's child entries in dict insertion
order. -/
theorem qsum_cons (ent : Entry) (rest : List Entry) :
    qsum (ent :: rest) = qsizeV ent.1 + qsum rest := by
  simp [qsum]

theorem qsum_tailstep (qh : Entry) (qt : List Entry) :
    qsum ((qh :: qt).dropLast ++ pushedFor ((qh :: qt).getLast (List.cons_ne_nil qh qt)).1)
      < qsum (qh :: qt) := by
  have hq : qh :: qt ≠ [] := List.cons_ne_nil qh qt
  have hsplit : (qh :: qt).dropLast ++ [(qh :: qt).getLast hq] = qh :: qt :=
    List.dropLast_append_getLast hq
  have hq2 : qsum (qh :: qt)
      = qsum (qh :: qt).dropLast + qsizeV ((qh :: qt).getLast hq).1 := by
    conv_lhs => rw [← hsplit]
    rw [qsum_append, qsum_cons]
    simp [qsum]
  rw [qsum_append, hq2]
  have h3 := qsum_pushedFor_lt ((qh :: qt).getLast hq).1
  omega

def bfsAux (q : List Entry) : List Entry :=
  match q with
  | [] => []
  | qh :: qt =>
      let ent := (qh :: qt).getLast (List.cons_ne_nil qh qt)
      ent :: bfsAux ((qh :: qt).dropLast ++ pushedFor ent.1)
termination_by qsum q
decreasing_by
  exact qsum_tailstep qh qt

/-- `Expression.bfs()`: seed with `(self, self.parent, None)` and run the
loop; the receiver's resolved parent is passed in as `parent`. -/
def bfsFrom (e : Expr) (parent : Option Expr) : List Entry :=
  bfsAux [(.vExpr e, parent, none)]

/-- Canonical level order, written from the spec's words ("canonical level
order") as the comparison point for the `bfs` traversal: the same loop but
removing from the head of the queue (FIFO) instead of the tail. This
definition follows the spec, not the source, and exists only to be compared
with `bfsAux`. -/
theorem qsum_headstep (ent : Entry) (rest : List Entry) :
    qsum (rest ++ pushedFor ent.1) < qsum (ent :: rest) := by
  rw [qsum_append, qsum_cons]
  have h3 := qsum_pushedFor_lt ent.1
  omega

def canonicalLevelAux (q : List Entry) : List Entry :=
  match q with
  | [] => []
  | ent :: rest => ent :: canonicalLevelAux (rest ++ pushedFor ent.1)
termination_by qsum q
decreasing_by
  exact qsum_headstep _ _

/-- Canonical level-order traversal from a root triple (spec comparison
definition, see `canonicalLevelAux`). -/
def canonicalLevelOrder (e : Expr) (parent : Option Expr) : List Entry :=
  canonicalLevelAux [(.vExpr e, parent, none)]

mutual
/-- `Expression.dfs(parent, key)`: yield the node's triple, then walk each
`args` slot in dict insertion order, iterating `ensure_list(v)` (inlined in
the slot/list helpers below so the recursion is structural), recursing into
node values and yielding non-node values as leaf triples. -/
def dfsE : Expr → Option Expr → Option String → List Entry
  | e@(.mk _ _ args), parent, key => (.vExpr e, parent, key) :: dfsArgs e args
termination_by structural e => e

def dfsArgs (owner : Expr) : List (String × Val) → List Entry
  | [] => []
  | (k, v) :: rest => dfsSlot owner k v ++ dfsArgs owner rest
termination_by structural l => l

/-- One slot of `dfs`: `for node in ensure_list(v)` with the node/leaf split
(`ensure_list` is inlined: a list slot iterates its elements, anything else
is the one-element iteration). -/
def dfsSlot (owner : Expr) (k : String) : Val → List Entry
  | .vList l => dfsNodes owner k l
  | .vExpr c => dfsE c (some owner) (some k)
  | v => [(v, some owner, some k)]
termination_by structural v => v

def dfsNodes (owner : Expr) (k : String) : List Val → List Entry
  | [] => []
  | .vExpr c :: rest => dfsE c (some owner) (some k) ++ dfsNodes owner k rest
  | v :: rest => (v, some owner, some k) :: dfsNodes owner k rest
termination_by structural l => l
end

/-- `Expression.walk(bfs=True)`: breadth-first (the tail-popping queue) when
`bfs` is true, otherwise `self.dfs(self.parent, None)`. The receiver's
resolved parent is passed in as `parent`. -/
def walk (e : Expr) (parent : Option Expr) (bfs : Bool) : List Entry :=
  if bfs then bfsFrom e parent else dfsE e parent none

/-- `Expression.find_all(*expression_types)`: the nodes of `walk()` (default
order) whose class is one of the given types, in walk order. `isinstance`
against a tuple of the modelled concrete classes is a kind-membership test
(none of them is subclassed by another modelled class). -/
def find_all (types : List EKind) (e : Expr) (parent : Option Expr) : List Expr :=
  (walk e parent true).filterMap (fun ent =>
    match ent.1 with
    | .vExpr n => if types.contains n.kind then some n else none
    | _ => none)

/-- `Expression.find(*expression_types)`: the first `find_all` result, or
absent. -/
def find (types : List EKind) (e : Expr) (parent : Option Expr) : Option Expr :=
  (find_all types e parent).head?

/-- The state a node's `_parent` weak reference can be in, together with the
(recursive) state of the parent's own reference: `root` models `_parent is
None` (never assigned), `dangling` models a weak reference whose referent
has been destroyed (`self._parent()` returns `None`), and `live p` models a
resolvable reference to a parent whose own chain is `p`. This is exactly the
state `Expression.parent` and `Expression.depth` read. -/
inductive PChain where
  | root : PChain
  | dangling : PChain
  | live : PChain → PChain

/-- `Expression.parent` (the property getter): `self._parent() if
self._parent else None` — absent when the reference was never set or when
its referent no longer exists. -/
def resolveParent : PChain → Option PChain
  | .root => none
  | .dangling => none
  | .live p => some p

/-- `Expression.depth`: `self.parent.depth + 1` when the parent resolves
(an `Expression` instance is always truthy), else `0`; recomputed on each
call. -/
def depth : PChain → Nat
  | .live p => depth p + 1
  | _ => 0

/-- What a rewrite function passed to `transform` returns for a node. The
code distinguishes exactly three outcomes: `None` (`retNone`), the same
instance (`same` — per the docstring contract, "the same node without
modifications"; in-place mutation by `fn` is outside this model), or
anything else (`repl v`: a non-node value or a different node instance),
detected by `new_node is not node`. -/
inductive FnRes where
  | retNone : FnRes
  | same : FnRes
  | repl : Val → FnRes

/-- The exceptions `transform` can raise: the explicit
`ValueError("A transformed node cannot be None")`, and the `AttributeError`
raised by `new_child_node.parent = new_node` when a child slot's transform
result does not accept attribute assignment (plain `None`, `str` and `list`
objects reject it; `Expression` has the `parent` setter, and `Token`
instances accept new attributes). -/
inductive TErr where
  | noneErr : TErr
  | parentAttrErr : TErr
deriving DecidableEq, Repr

/-- `new_child_node.parent = new_node` applied to the result of a child's
recursive transform: succeeds (a no-op on the tree value, since parent links
are not part of it) for node and token results, raises `AttributeError` for
`None`, string and list results. -/
def attachParent : Except TErr Val × List Expr → Except TErr Val × List Expr
  | (.ok (.vExpr m), vs) => (.ok (.vExpr m), vs)
  | (.ok (.vTok t), vs) => (.ok (.vTok t), vs)
  | (.ok _, vs) => (.error .parentAttrErr, vs)
  | r => r

mutual
/-- `Expression.transform(fun, copy=False)` on a node, paired with the list
of nodes `fun` was invoked on, in invocation order, during the (possibly
aborted) run. Apply `fun` to the node; `None` raises the `ValueError`; a
non-node or different-node result is returned as-is without recursion;
otherwise rebuild every `args` slot from the recursively transformed
children, preserving the slot's single-value-versus-list shape, and return
the node. -/
def transformE (fn : Expr → FnRes) : Expr → Except TErr Val × List Expr
  | e@(.mk k i args) =>
      match fn e with
      | .retNone => (.error .noneErr, [e])
      | .repl v => (.ok v, [e])
      | .same =>
          match transformArgs fn args with
          | (.error er, vs) => (.error er, e :: vs)
          | (.ok args2, vs) => (.ok (.vExpr (.mk k i args2)), e :: vs)
termination_by structural e => e

/-- The `for k, v in new_node.args.items()` loop: rebuild each slot in dict
insertion order, stopping at the first raised exception. -/
def transformArgs (fn : Expr → FnRes) :
    List (String × Val) → Except TErr (List (String × Val)) × List Expr
  | [] => (.ok [], [])
  | (k, v) :: rest =>
      match transformSlot fn v with
      | (.error er, vs) => (.error er, vs)
      | (.ok v2, vs) =>
          match transformArgs fn rest with
          | (.error er, vs2) => (.error er, vs ++ vs2)
          | (.ok rest2, vs2) => (.ok ((k, v2) :: rest2), vs ++ vs2)
termination_by structural l => l

/-- One slot: a list slot transforms each element and is written back as a
list (`new_node.args[k] = new_child_nodes`); a single-value slot transforms
its one element and is written back bare (`new_child_nodes[0]`). A node
child recurses with `copy=False` and gets its parent re-attached
(`attachParent`); a non-node child passes through unchanged. -/
def transformSlot (fn : Expr → FnRes) : Val → Except TErr Val × List Expr
  | .vList l =>
      match transformChildren fn l with
      | (.error er, vs) => (.error er, vs)
      | (.ok l2, vs) => (.ok (.vList l2), vs)
  | .vExpr c => attachParent (transformE fn c)
  | v => (.ok v, [])
termination_by structural v => v

/-- The elements of a list slot, left to right, stopping at the first raised
exception; node elements recurse (plus parent re-attachment), non-node
elements pass through. -/
def transformChildren (fn : Expr → FnRes) :
    List Val → Except TErr (List Val) × List Expr
  | [] => (.ok [], [])
  | c :: rest =>
      match
        (match c with
         | .vExpr cc => attachParent (transformE fn cc)
         | v => (.ok v, [])) with
      | (.error er, vs) => (.error er, vs)
      | (.ok c2, vs) =>
          match transformChildren fn rest with
          | (.error er, vs2) => (.error er, vs ++ vs2)
          | (.ok rest2, vs2) => (.ok (c2 :: rest2), vs ++ vs2)
termination_by structural l => l
end

mutual
/-- `copy.deepcopy` of a node: a structurally identical tree of fresh
objects. Fresh identities are drawn from the counter `c` (the clone's root
gets tag `c`; the final counter is returned), so a clone drawn from a
counter above every tag of the original shares no object with it. -/
def deepcopyE (c : Nat) : Expr → Expr × Nat
  | .mk k _ args =>
      let (args2, c2) := deepcopyArgs (c + 1) args
      (.mk k c args2, c2)
termination_by structural e => e

def deepcopyArgs (c : Nat) : List (String × Val) → List (String × Val) × Nat
  | [] => ([], c)
  | (k, v) :: rest =>
      let (v2, c2) := deepcopyV c v
      let (rest2, c3) := deepcopyArgs c2 rest
      ((k, v2) :: rest2, c3)
termination_by structural l => l

def deepcopyV (c : Nat) : Val → Val × Nat
  | .vExpr e => let (e2, c2) := deepcopyE c e; (.vExpr e2, c2)
  | .vList l => let (l2, c2) := deepcopyList c l; (.vList l2, c2)
  | v => (v, c)
termination_by structural v => v

def deepcopyList (c : Nat) : List Val → List Val × Nat
  | [] => ([], c)
  | v :: rest =>
      let (v2, c2) := deepcopyV c v
      let (rest2, c3) := deepcopyList c2 rest
      (v2 :: rest2, c3)
termination_by structural l => l
end

/-- `Expression.transform(fun, copy)`: deep-clone the receiver first when
`copy` is requested (`fresh` seeds the clone's identity tags), then run the
rewrite. Returns the result and the list of nodes `fun` was invoked on. -/
def transform (fn : Expr → FnRes) (copy : Bool) (e : Expr) (fresh : Nat) :
    Except TErr Val × List Expr :=
  transformE fn (if copy then (deepcopyE fresh e).1 else e)

mutual
/-- Every object identity tag occurring in a tree. -/
def idsE : Expr → List Nat
  | .mk _ i args => i :: idsArgs args
termination_by structural e => e

def idsArgs : List (String × Val) → List Nat
  | [] => []
  | (_, v) :: rest => idsV v ++ idsArgs rest
termination_by structural l => l

def idsV : Val → List Nat
  | .vExpr e => idsE e
  | .vList l => idsList l
  | _ => []
termination_by structural v => v

def idsList : List Val → List Nat
  | [] => []
  | v :: rest => idsV v ++ idsList rest
termination_by structural l => l
end

mutual
/-- Mutation through an object reference: apply the args rewrite `f` to
every node of the tree whose identity tag is `i` (same tag = same object,
so this is what assigning into that object's `args` does to any tree value
that contains it). A tree containing no node tagged `i` is untouched. -/
def mutAtE (i : Nat) (f : List (String × Val) → List (String × Val)) : Expr → Expr
  | .mk k j args =>
      let args2 := mutAtArgs i f args
      .mk k j (if j == i then f args2 else args2)
termination_by structural e => e

def mutAtArgs (i : Nat) (f : List (String × Val) → List (String × Val)) :
    List (String × Val) → List (String × Val)
  | [] => []
  | (k, v) :: rest => (k, mutAtV i f v) :: mutAtArgs i f rest
termination_by structural l => l

def mutAtV (i : Nat) (f : List (String × Val) → List (String × Val)) : Val → Val
  | .vExpr e => .vExpr (mutAtE i f e)
  | .vList l => .vList (mutAtList i f l)
  | v => v
termination_by structural v => v

def mutAtList (i : Nat) (f : List (String × Val) → List (String × Val)) :
    List Val → List Val
  | [] => []
  | v :: rest => mutAtV i f v :: mutAtList i f rest
termination_by structural l => l
end

/-- No string occurs twice in a list (the key lists of Python dicts). -/
def nodupStr : List String → Bool
  | [] => true
  | k :: r => !(r.contains k) && nodupStr r

mutual
/-- Well-formedness of a tree as a Python value: every node's `args` dict
has pairwise distinct keys (Python dicts cannot hold a key twice; an
association list with duplicate keys represents no Python dict). -/
def nodupArgs : Expr → Bool
  | .mk _ _ args => nodupStr (args.map Prod.fst) && nodupArgsA args
termination_by structural e => e

def nodupArgsA : List (String × Val) → Bool
  | [] => true
  | (_, v) :: rest => nodupArgsV v && nodupArgsA rest
termination_by structural l => l

def nodupArgsV : Val → Bool
  | .vExpr e => nodupArgs e
  | .vList l => nodupArgsL l
  | _ => true
termination_by structural v => v

def nodupArgsL : List Val → Bool
  | [] => true
  | v :: rest => nodupArgsV v && nodupArgsL rest
termination_by structural l => l
end

/-- `v is None` (the binder's skip test and the transform contract test). -/
def Val.isNoneV : Val → Bool
  | .vNone => true
  | _ => false

/-- Whether a rewrite function's result is the absent (`None`) outcome. -/
def FnRes.isRetNone : FnRes → Bool
  | .retNone => true
  | _ => false

mutual
/-- The tree with every identity tag set to 0: two trees are the same
Python value-structure (identities aside) exactly when their erasures are
equal. -/
def eraseIdsE : Expr → Expr
  | .mk k _ args => .mk k 0 (eraseIdsArgs args)
termination_by structural e => e

def eraseIdsArgs : List (String × Val) → List (String × Val)
  | [] => []
  | (k, v) :: rest => (k, eraseIdsV v) :: eraseIdsArgs rest
termination_by structural l => l

def eraseIdsV : Val → Val
  | .vExpr e => .vExpr (eraseIdsE e)
  | .vList l => .vList (eraseIdsList l)
  | v => v
termination_by structural v => v

def eraseIdsList : List Val → List Val
  | [] => []
  | v :: rest => eraseIdsV v :: eraseIdsList rest
termination_by structural l => l
end

mutual
/-- Positional alignment of two `args` dicts: same keys in the same
insertion order, with recursively aligned values. (Python `==` on dicts
ignores insertion order; this is the extra alignment under which the
generic `__hash__`, which reads insertion order, is determined by `==`.) -/
def sameOrdArgs : List (String × Val) → List (String × Val) → Bool
  | [], [] => true
  | (k1, v1) :: r1, (k2, v2) :: r2 => (k1 == k2) && sameOrdV v1 v2 && sameOrdArgs r1 r2
  | _, _ => false
termination_by structural l => l

def sameOrdE : Expr → Expr → Bool
  | .mk _ _ a, .mk _ _ b => sameOrdArgs a b
termination_by structural e => e

def sameOrdV : Val → Val → Bool
  | .vExpr a, .vExpr b => sameOrdE a b
  | .vList l, .vList m => sameOrdList l m
  | _, _ => true
termination_by structural v => v

def sameOrdList : List Val → List Val → Bool
  | [], [] => true
  | a :: l, b :: m => sameOrdV a b && sameOrdList l m
  | _, _ => false
termination_by structural l => l
end

mutual
/-- Positional Python equality of two `args` dicts: same keys in the same
order with pairwise `==` values. This bridges Python dict `==` (which is
lookup-based) and position-based reasoning, on dicts with unique keys. -/
def pyArgsPointwise : List (String × Val) → List (String × Val) → Bool
  | [], [] => true
  | (k1, v1) :: r1, (k2, v2) :: r2 => (k1 == k2) && pyValEq v1 v2 && pyArgsPointwise r1 r2
  | _, _ => false
termination_by structural l => l
end

/-- The node identity of a traversal entry's item, if the item is a node
(used to state traversal orders compactly). -/
def entryItemId (ent : Entry) : Option Nat :=
  match ent.1 with
  | .vExpr n => some n.eid
  | _ => none

theorem bindFixed_eq (keys : List String) (args : List Val) :
    bindFixed keys args
      = ((keys.zip args).filter (fun p => !p.2.isNoneV), args.drop keys.length) := by
  induction keys generalizing args with
  | nil => simp [bindFixed]
  | cons k ks ih =>
      cases args with
      | nil => simp [bindFixed]
      | cons a rest =>
          cases a with
          | vNone => simp [bindFixed, ih, Val.isNoneV]
          | vStr s => simp [bindFixed, ih, Val.isNoneV]
          | vTok t => simp [bindFixed, ih, Val.isNoneV]
          | vExpr e => simp [bindFixed, ih, Val.isNoneV]
          | vList l => simp [bindFixed, ih, Val.isNoneV]

/-- C7: `depth` is 0 at a node with no resolvable parent — including a
dangling weak back-reference, which resolves to an absent parent rather
than raising — and is `1 + parent.depth` whenever the parent resolves; so
along intact parent links each child is one deeper than its parent. -/
theorem claim_C7 :
    (∀ c : PChain, resolveParent c = none → depth c = 0)
      ∧ (∀ p : PChain, depth (PChain.live p) = depth p + 1)
      ∧ resolveParent PChain.dangling = none
      ∧ resolveParent PChain.root = none
      ∧ (∀ p : PChain, resolveParent (PChain.live p) = some p) := by
  refine ⟨?_, ?_, rfl, rfl, fun p => rfl⟩
  · intro c h
    cases c with
    | root => rfl
    | dangling => rfl
    | live p => simp [resolveParent] at h
  · intro p
    rfl

/-- C7 witness: the defining equations evaluated at a concrete chain (a
dangling back-reference two levels down). -/
theorem claim_C7_witness :
    depth PChain.dangling = 0
      ∧ depth (PChain.live (PChain.live PChain.dangling)) = 2 := by
  refine ⟨claim_C7.1 PChain.dangling rfl, ?_⟩
  rw [claim_C7.2.1, claim_C7.2.1, claim_C7.1 PChain.dangling rfl]

/-- C9: on a non-variadic variant, `from_arg_list` binds positional values
to schema keys in declaration order (zip), skipping `None` values, and
silently drops every positional value beyond the arity (zip truncation); on
the fixed-arity-2 `Map`, `[a, b]` binds both keys and `[a, b, c]` yields
the same mapping, dropping `c`. -/
theorem claim_C9 :
    (∀ (keys : List String) (args : List Val),
      from_arg_list keys false args
        = some ((keys.zip args).filter (fun p => !p.2.isNoneV)))
      ∧ from_arg_listK .map [.vStr "a", .vStr "b"]
          = some (.mk .map 0 [("keys", .vStr "a"), ("values", .vStr "b")])
      ∧ from_arg_listK .map [.vStr "a", .vStr "b", .vStr "c"]
          = some (.mk .map 0 [("keys", .vStr "a"), ("values", .vStr "b")]) := by
  refine ⟨?_, rfl, rfl⟩
  intro keys args
  simp [from_arg_list, bindFixed_eq]

theorem from_arg_list_eq (keys : List String) (varlen : Bool) (args : List Val) :
    from_arg_list keys varlen args
      = (if varlen && !(args.drop (if varlen then keys.dropLast else keys).length).isEmpty
         then
           match keys.getLast? with
           | some k =>
               some ((((if varlen then keys.dropLast else keys).zip args).filter
                   (fun p => !p.2.isNoneV))
                 ++ [(k, .vList (args.drop (if varlen then keys.dropLast else keys).length))])
           | none => none
         else some (((if varlen then keys.dropLast else keys).zip args).filter
             (fun p => !p.2.isNoneV))) := by
  simp only [from_arg_list, bindFixed_eq]

/-- C3: on a variadic variant, `from_arg_list` binds every schema key but
the last to successive positional values in declaration order (skipping
`None` values, see C2), and binds the entire unconsumed remainder, in
order, as one list to the final key (only when that remainder is
non-empty); on `Coalesce` (fixed key `this`, variadic key `expressions`),
`[a, b, c]` binds `this` to `a` and `expressions` to `[b, c]`. -/
theorem claim_C3 :
    (∀ (k : String) (ks : List String) (args : List Val),
      from_arg_list (k :: ks) true args
        = some ((((k :: ks).dropLast.zip args).filter (fun p => !p.2.isNoneV))
            ++ (if (args.drop ks.length).isEmpty then []
                else [((k :: ks).getLast (List.cons_ne_nil k ks),
                       .vList (args.drop ks.length))])))
      ∧ from_arg_listK .coalesce [.vStr "a", .vStr "b", .vStr "c"]
          = some (.mk .coalesce 0
              [("this", .vStr "a"), ("expressions", .vList [.vStr "b", .vStr "c"])]) := by
  refine ⟨?_, rfl⟩
  intro k ks args
  have hlen : (k :: ks).dropLast.length = ks.length := by
    simp [List.length_dropLast]
  have hlast : (k :: ks).getLast? = some ((k :: ks).getLast (List.cons_ne_nil k ks)) :=
    List.getLast?_eq_getLast _ _
  rw [from_arg_list_eq]
  by_cases hrest : (args.drop ks.length).isEmpty
  · simp [hlen, hrest]
  · simp [hlen, hrest, hlast]

/-- C2 counterexample: a `None` in the variadic tail is recorded verbatim
inside the sequence bound to the final key: on `Coalesce`'s schema,
`from_arg_list` on `[a, None]` binds `expressions` to the list `[None]` —
an absent value inside a bound sequence, contradicting the claim that a
none/absent input value is never recorded. -/
theorem claim_C2_counterexample :
    from_arg_list ["this", "expressions"] true [.vStr "a", .vNone]
        = some [("this", .vStr "a"), ("expressions", .vList [.vNone])]
      ∧ lookupArg [("this", Val.vStr "a"), ("expressions", Val.vList [Val.vNone])]
          "expressions" = some (.vList [.vNone]) := ⟨rfl, rfl⟩

/-- C2, amended: no key of the resulting mapping is ever bound directly to
an absent value — a `None` consumed by a fixed-arity key is skipped rather
than bound, and the final variadic key, when bound, is bound to a list —
but absent values occurring in the variadic tail are carried verbatim
inside the sequence bound to the final key (see the counterexample). -/
theorem claim_C2 :
    ∀ (keys : List String) (varlen : Bool) (args : List Val)
      (d : List (String × Val)),
      from_arg_list keys varlen args = some d →
        d.all (fun p => !p.2.isNoneV) = true := by
  intro keys varlen args d h
  have hfixed : ∀ (ks : List String) (as2 : List Val),
      ((ks.zip as2).filter (fun p => !p.2.isNoneV)).all (fun p => !p.2.isNoneV) = true := by
    intro ks as2
    exact List.all_eq_true.2 (fun p hp => (List.mem_filter.1 hp).2)
  rw [from_arg_list_eq] at h
  by_cases hv : (varlen && !(args.drop (if varlen then keys.dropLast else keys).length).isEmpty) = true
  · rw [if_pos hv] at h
    cases hlast : keys.getLast? with
    | none => rw [hlast] at h; simp at h
    | some k =>
        rw [hlast] at h
        simp only [Option.some_inj] at h
        subst h
        rw [List.all_append, Bool.and_eq_true]
        exact ⟨hfixed _ _, by simp [Val.isNoneV]⟩
  · rw [if_neg hv] at h
    simp only [Option.some_inj] at h
    subst h
    exact hfixed _ _

/-- C2 witness: the amended statement applied to the counterexample input —
the binding of `expressions` to `[None]` is a list binding, so no key is
bound directly to an absent value even there. -/
theorem claim_C2_witness :
    ([("this", Val.vStr "a"), ("expressions", Val.vList [Val.vNone])].all
        (fun p => !p.2.isNoneV)) = true :=
  claim_C2 ["this", "expressions"] true [.vStr "a", .vNone] _ rfl

/-- C5: `Column` equality and hashing are case-insensitive across name,
table, db and fields: any two column nodes whose name/table/db texts and
field texts agree up to letter case compare equal and have equal hash
inputs; in particular a column of `Foo` in table `T` equals a column of
`foo` in table `t` (the names are carried by tokens, per `Column.name`). -/
theorem claim_C5 :
    (∀ x y : Expr, x.kind = .column → y.kind = .column →
      upperOr x.colName = upperOr y.colName →
      upperOr x.colTable = upperOr y.colTable →
      upperOr x.colDb = upperOr y.colDb →
      x.colFields.map pyUpper = y.colFields.map pyUpper →
      pyEqE x y = true ∧ pyHashE x = pyHashE y)
      ∧ pyEqE (.mk .column 0 [("this", .vTok ⟨"Foo", "VAR"⟩), ("table", .vTok ⟨"T", "VAR"⟩)])
          (.mk .column 1 [("this", .vTok ⟨"foo", "VAR"⟩), ("table", .vTok ⟨"t", "VAR"⟩)]) = true
      ∧ pyHashE (.mk .column 0 [("this", .vTok ⟨"Foo", "VAR"⟩), ("table", .vTok ⟨"T", "VAR"⟩)])
          = pyHashE (.mk .column 1 [("this", .vTok ⟨"foo", "VAR"⟩), ("table", .vTok ⟨"t", "VAR"⟩)]) := by
  refine ⟨?_, rfl, rfl⟩
  intro x y hx hy h1 h2 h3 h4
  have hfq : x.colFields.map (fun f => quoteStr (pyUpper f))
      = y.colFields.map (fun f => quoteStr (pyUpper f)) := by
    have h5 := congrArg (List.map quoteStr) h4
    simpa [List.map_map, Function.comp] using h5
  cases x with
  | mk kx ix ax =>
      cases y with
      | mk ky iy ay =>
          have hkx : kx = .column := hx
          have hky : ky = .column := hy
          subst hkx
          subst hky
          constructor
          · simp only [pyEqE, columnEqB, h1, h2, h3, h4]
            simp [Expr.kind]
          · simp only [pyHashE, h1, h2, h3, hfq, Expr.key, Expr.kind, kindKey]

/-- C5 witness: the general case-insensitivity statement applied to the two
concrete columns from the claim. -/
theorem claim_C5_witness :
    pyEqE (.mk .column 5 [("this", .vTok ⟨"Foo", "VAR"⟩), ("table", .vTok ⟨"T", "VAR"⟩)])
        (.mk .column 6 [("this", .vTok ⟨"foo", "VAR"⟩), ("table", .vTok ⟨"t", "VAR"⟩)]) = true :=
  (claim_C5.1 (.mk .column 5 [("this", .vTok ⟨"Foo", "VAR"⟩), ("table", .vTok ⟨"T", "VAR"⟩)])
    (.mk .column 6 [("this", .vTok ⟨"foo", "VAR"⟩), ("table", .vTok ⟨"t", "VAR"⟩)])
    rfl rfl rfl rfl rfl rfl).1

/-- C1 counterexample: a rewrite function that replaces a non-root node
with a value that is not a node. The claim says the replacement value is
returned for that slot as-is; instead, `transform` raises an
`AttributeError` when it re-attaches the parent on the non-node result
(`new_child_node.parent = new_node` on a `str`), so no tree is produced at
all. The function returns a terminal replacement for the child (first
conjunct) and the whole transform errors (second conjunct). -/
theorem claim_C1_counterexample :
    ((fun e => if Expr.eid e == 2 then FnRes.repl (.vStr "x") else FnRes.same)
        (Expr.mk .expression 2 [("this", .vStr "leaf")]) = FnRes.repl (.vStr "x"))
      ∧ (transformE (fun e => if Expr.eid e == 2 then FnRes.repl (.vStr "x") else FnRes.same)
          (.mk .expression 1 [("this", .vExpr (.mk .expression 2 [("this", .vStr "leaf")]))])).1
        = .error .parentAttrErr :=
  ⟨rfl, rfl⟩

/-- C1, amended: a result of `fn` that is not the node it was passed is a
terminal replacement — `transform` does not recurse into it and `fn` is
never invoked on anything inside it (the visit list of the call is exactly
the one node). The call on which `fn` returned the replacement returns the
replacement value as-is; at an enclosing child slot the replacement is then
stored as-is when it is a node (after its parent back-reference is
re-attached), while a non-node replacement (for example a string) makes the
parent re-attachment raise an `AttributeError` instead of being stored. -/
theorem claim_C1 :
    (∀ (fn : Expr → FnRes) (e : Expr) (v : Val), fn e = .repl v →
      transformE fn e = (.ok v, [e]))
      ∧ (∀ (fn : Expr → FnRes) (c m : Expr), fn c = .repl (.vExpr m) →
        transformSlot fn (.vExpr c) = (.ok (.vExpr m), [c]))
      ∧ (∀ (fn : Expr → FnRes) (c : Expr) (s : String), fn c = .repl (.vStr s) →
        transformSlot fn (.vExpr c) = (.error .parentAttrErr, [c])) := by
  have hroot : ∀ (fn : Expr → FnRes) (e : Expr) (v : Val), fn e = .repl v →
      transformE fn e = (.ok v, [e]) := by
    intro fn e v h
    cases e with
    | mk k i a => simp [transformE, h]
  refine ⟨hroot, ?_, ?_⟩
  · intro fn c m h
    simp [transformSlot, hroot fn c _ h, attachParent]
  · intro fn c s h
    simp [transformSlot, hroot fn c _ h, attachParent]

/-- C1 witness: a replacement at the root is returned as-is with the
rewrite function invoked exactly once. -/
theorem claim_C1_witness :
    transformE (fun _ => FnRes.repl (.vStr "x")) (.mk .expression 0 [])
      = (.ok (.vStr "x"), [.mk .expression 0 []]) :=
  claim_C1.1 _ _ _ rfl

/-- C4 counterexample: children are pushed in the args dict insertion
order, not in schema-declared key order. `Map` declares its schema keys in
the order `keys`, `values` (third conjunct). On a `Map` node whose args
were bound in the order `values` (child 91), `keys` (child 92), a stack
seeded with the root triple that pushed children in schema-declared key
order (`keys` child 92 first, then `values` child 91) and removed from the
tail would visit 91 before 92; the actual traversal visits 92 first,
because the push order is the insertion order `values`, `keys`. -/
theorem claim_C4_counterexample :
    (bfsFrom (.mk .map 9 [("values", .vExpr (.mk .expression 91 [])),
        ("keys", .vExpr (.mk .expression 92 []))]) none).map entryItemId
      = [some 9, some 92, some 91]
      ∧ ([some 9, some 92, some 91] : List (Option Nat)) ≠ [some 9, some 91, some 92]
      ∧ (argTypesOf .map).map Prod.fst = ["keys", "values"] := by
  refine ⟨?_, by decide, rfl⟩
  simp [bfsFrom, bfsAux, pushedFor, childEntries, childEntriesAux, ensure_list,
    Expr.args, entryItemId, Expr.eid]

/-- C4, amended: the default `walk` order — also the order `find` and
`find_all` consume — is produced by a stack seeded with the root triple
from which items are repeatedly removed at the tail, with each removed
node's children pushed in args-dict insertion order (the schema declaration
order whenever the node bound its args in that order, but see the
counterexample); the resulting sequence differs from canonical level order:
on a root (5) with two multi-child children (3 with leaves 11 and 12, 4
with leaves 21 and 22), the entire subtree of the second child 4 is visited
before the first child 3, while canonical level order visits 3 first. -/
theorem claim_C4 :
    (∀ (e : Expr) (p : Option Expr), walk e p true = bfsFrom e p)
      ∧ (∀ (ts : List EKind) (e : Expr) (p : Option Expr),
          find_all ts e p = (walk e p true).filterMap (fun ent =>
            match ent.1 with
            | .vExpr n => if ts.contains n.kind then some n else none
            | _ => none))
      ∧ (∀ (ts : List EKind) (e : Expr) (p : Option Expr),
          find ts e p = (find_all ts e p).head?)
      ∧ (bfsFrom (.mk .expression 5
            [("x", .vExpr (.mk .expression 3 [("a", .vExpr (.mk .expression 11 [])),
                ("b", .vExpr (.mk .expression 12 []))])),
             ("y", .vExpr (.mk .expression 4 [("a", .vExpr (.mk .expression 21 [])),
                ("b", .vExpr (.mk .expression 22 []))]))]) none).map entryItemId
          = [some 5, some 4, some 22, some 21, some 3, some 12, some 11]
      ∧ (canonicalLevelOrder (.mk .expression 5
            [("x", .vExpr (.mk .expression 3 [("a", .vExpr (.mk .expression 11 [])),
                ("b", .vExpr (.mk .expression 12 []))])),
             ("y", .vExpr (.mk .expression 4 [("a", .vExpr (.mk .expression 21 [])),
                ("b", .vExpr (.mk .expression 22 []))]))]) none).map entryItemId
          = [some 5, some 3, some 4, some 11, some 12, some 21, some 22]
      ∧ [some 5, some 4, some 22, some 21, some 3, some 12, some 11]
          ≠ [some 5, some 3, some 4, some 11, some 12, some 21, some 22] := by
  refine ⟨fun e p => rfl, fun ts e p => rfl, fun ts e p => rfl, ?_, ?_, by decide⟩
  · simp [bfsFrom, bfsAux, pushedFor, childEntries, childEntriesAux, ensure_list,
      Expr.args, entryItemId, Expr.eid]
  · simp [canonicalLevelOrder, canonicalLevelAux, pushedFor, childEntries,
      childEntriesAux, ensure_list, Expr.args, entryItemId, Expr.eid]

mutual
/-- Size measure mirroring `transform`'s call graph (each recursive call
strictly decreases it by at least one), used for induction over the
transform family, whose functional induction principle is unavailable. -/
def tsizeE : Expr → Nat
  | .mk _ _ args => 1 + tsizeArgs args
termination_by structural e => e

def tsizeArgs : List (String × Val) → Nat
  | [] => 0
  | (_, v) :: r => 1 + tsizeSlot v + tsizeArgs r
termination_by structural l => l

def tsizeSlot : Val → Nat
  | .vList l => 1 + tsizeChildren l
  | .vExpr e => 1 + tsizeE e
  | _ => 1
termination_by structural v => v

def tsizeChildren : List Val → Nat
  | [] => 0
  | .vExpr e :: r => 1 + tsizeE e + tsizeChildren r
  | _ :: r => 1 + tsizeChildren r
termination_by structural l => l
end

theorem transform_id_aux : ∀ N : Nat,
    (∀ e : Expr, tsizeE e ≤ N →
      (transformE (fun _ => FnRes.same) e).1 = .ok (.vExpr e))
      ∧ (∀ l : List (String × Val), tsizeArgs l ≤ N →
        (transformArgs (fun _ => FnRes.same) l).1 = .ok l)
      ∧ (∀ v : Val, tsizeSlot v ≤ N →
        (transformSlot (fun _ => FnRes.same) v).1 = .ok v)
      ∧ (∀ l : List Val, tsizeChildren l ≤ N →
        (transformChildren (fun _ => FnRes.same) l).1 = .ok l) := by
  intro N
  induction N with
  | zero =>
      refine ⟨?_, ?_, ?_, ?_⟩
      · intro e he
        exfalso
        cases e with
        | mk k i a => simp [tsizeE] at he
      · intro l hl
        cases l with
        | nil => simp [transformArgs]
        | cons p r =>
            exfalso
            obtain ⟨k, v⟩ := p
            simp [tsizeArgs] at hl
      · intro v hv
        exfalso
        cases v <;> simp [tsizeSlot] at hv
      · intro l hl
        cases l with
        | nil => simp [transformChildren]
        | cons c r =>
            exfalso
            cases c <;> simp [tsizeChildren] at hl
  | succ N ih =>
      obtain ⟨ihE, ihA, ihS, ihC⟩ := ih
      refine ⟨?_, ?_, ?_, ?_⟩
      · intro e he
        cases e with
        | mk k i a =>
            have h1 : tsizeArgs a ≤ N := by
              simp [tsizeE] at he
              omega
            rcases hp : transformArgs (fun _ => FnRes.same) a with ⟨r, vs⟩
            have h2 := ihA a h1
            rw [hp] at h2
            simp only at h2
            subst h2
            simp [transformE, hp]
      · intro l hl
        cases l with
        | nil => simp [transformArgs]
        | cons p rest =>
            obtain ⟨k, v⟩ := p
            have h1 : tsizeSlot v ≤ N := by
              simp [tsizeArgs] at hl
              omega
            have h2 : tsizeArgs rest ≤ N := by
              simp [tsizeArgs] at hl
              omega
            rcases hp : transformSlot (fun _ => FnRes.same) v with ⟨r1, vs1⟩
            rcases hq : transformArgs (fun _ => FnRes.same) rest with ⟨r2, vs2⟩
            have h3 := ihS v h1
            have h4 := ihA rest h2
            rw [hp] at h3
            rw [hq] at h4
            simp only at h3 h4
            subst h3
            subst h4
            simp [transformArgs, hp, hq]
      · intro v hv
        cases v with
        | vList l =>
            have h1 : tsizeChildren l ≤ N := by
              simp [tsizeSlot] at hv
              omega
            rcases hp : transformChildren (fun _ => FnRes.same) l with ⟨r, vs⟩
            have h2 := ihC l h1
            rw [hp] at h2
            simp only at h2
            subst h2
            simp [transformSlot, hp]
        | vExpr c =>
            have h1 : tsizeE c ≤ N := by
              simp [tsizeSlot] at hv
              omega
            rcases hp : transformE (fun _ => FnRes.same) c with ⟨r, vs⟩
            have h2 := ihE c h1
            rw [hp] at h2
            simp only at h2
            subst h2
            simp [transformSlot, attachParent, hp]
        | vNone => simp [transformSlot]
        | vStr s => simp [transformSlot]
        | vTok t => simp [transformSlot]
      · intro l hl
        cases l with
        | nil => simp [transformChildren]
        | cons c rest =>
            have h2 : tsizeChildren rest ≤ N := by
              cases c <;> simp [tsizeChildren] at hl <;> omega
            rcases hq : transformChildren (fun _ => FnRes.same) rest with ⟨r2, vs2⟩
            have h4 := ihC rest h2
            rw [hq] at h4
            simp only at h4
            subst h4
            cases c with
            | vExpr cc =>
                have h1 : tsizeE cc ≤ N := by
                  simp [tsizeChildren] at hl
                  omega
                rcases hp : transformE (fun _ => FnRes.same) cc with ⟨r1, vs1⟩
                have h3 := ihE cc h1
                rw [hp] at h3
                simp only at h3
                subst h3
                simp [transformChildren, attachParent, hp, hq]
            | vNone => simp [transformChildren, hq]
            | vStr s => simp [transformChildren, hq]
            | vTok t => simp [transformChildren, hq]
            | vList ll => simp [transformChildren, hq]

theorem transform_id (e : Expr) :
    (transformE (fun _ => FnRes.same) e).1 = .ok (.vExpr e) :=
  (transform_id_aux (tsizeE e)).1 e le_rfl

theorem exists_cons_none (e : Expr) (vs : List Expr) (fn : Expr → FnRes)
    (he : fn e ≠ .retNone) :
    (∃ n, n ∈ e :: vs ∧ fn n = .retNone) ↔ (∃ n, n ∈ vs ∧ fn n = .retNone) := by
  constructor
  · rintro ⟨n, hn, hr⟩
    rcases List.mem_cons.1 hn with h | h
    · exact absurd (h ▸ hr) he
    · exact ⟨n, h, hr⟩
  · rintro ⟨n, hn, hr⟩
    exact ⟨n, List.mem_cons_of_mem _ hn, hr⟩

theorem exists_append_none (vs1 vs2 : List Expr) (fn : Expr → FnRes) :
    (∃ n, n ∈ vs1 ++ vs2 ∧ fn n = .retNone)
      ↔ ((∃ n, n ∈ vs1 ∧ fn n = .retNone) ∨ (∃ n, n ∈ vs2 ∧ fn n = .retNone)) := by
  simp [List.mem_append, or_and_right, exists_or]

theorem transform_none_iff_aux (fn : Expr → FnRes) : ∀ N : Nat,
    (∀ e : Expr, tsizeE e ≤ N →
      ((transformE fn e).1 = .error .noneErr
        ↔ ∃ n, n ∈ (transformE fn e).2 ∧ fn n = .retNone))
      ∧ (∀ l : List (String × Val), tsizeArgs l ≤ N →
        ((transformArgs fn l).1 = .error .noneErr
          ↔ ∃ n, n ∈ (transformArgs fn l).2 ∧ fn n = .retNone))
      ∧ (∀ v : Val, tsizeSlot v ≤ N →
        ((transformSlot fn v).1 = .error .noneErr
          ↔ ∃ n, n ∈ (transformSlot fn v).2 ∧ fn n = .retNone))
      ∧ (∀ l : List Val, tsizeChildren l ≤ N →
        ((transformChildren fn l).1 = .error .noneErr
          ↔ ∃ n, n ∈ (transformChildren fn l).2 ∧ fn n = .retNone)) := by
  intro N
  induction N with
  | zero =>
      refine ⟨?_, ?_, ?_, ?_⟩
      · intro e he
        exfalso
        cases e with
        | mk k i a => simp [tsizeE] at he
      · intro l hl
        cases l with
        | nil => simp [transformArgs]
        | cons p r =>
            exfalso
            obtain ⟨k, v⟩ := p
            simp [tsizeArgs] at hl
      · intro v hv
        exfalso
        cases v <;> simp [tsizeSlot] at hv
      · intro l hl
        cases l with
        | nil => simp [transformChildren]
        | cons c r =>
            exfalso
            cases c <;> simp [tsizeChildren] at hl
  | succ N ih =>
      obtain ⟨ihE, ihA, ihS, ihC⟩ := ih
      refine ⟨?_, ?_, ?_, ?_⟩
      · intro e he
        cases e with
        | mk k i a =>
            cases hf : fn (.mk k i a) with
            | retNone =>
                simp only [transformE, hf]
                exact iff_of_true (by simp) ⟨.mk k i a, by simp, hf⟩
            | repl v =>
                simp only [transformE, hf]
                refine iff_of_false (by simp) ?_
                rintro ⟨n, hn, hr⟩
                rw [List.mem_singleton] at hn
                rw [hn, hf] at hr
                exact FnRes.noConfusion hr
            | same =>
                have h1 : tsizeArgs a ≤ N := by
                  simp [tsizeE] at he
                  omega
                have hne : fn (.mk k i a) ≠ .retNone := by
                  rw [hf]
                  exact fun hcon => FnRes.noConfusion hcon
                rcases hp : transformArgs fn a with ⟨r, vs⟩
                have h2 := ihA a h1
                rw [hp] at h2
                simp only at h2
                cases r with
                | error er =>
                    simp only [transformE, hf, hp]
                    rw [exists_cons_none _ _ _ hne]
                    simp only [Except.error.injEq] at h2 ⊢
                    exact h2
                | ok args2 =>
                    simp only [transformE, hf, hp]
                    refine iff_of_false (by simp) ?_
                    rw [exists_cons_none _ _ _ hne]
                    rw [← h2]
                    simp
      · intro l hl
        cases l with
        | nil => simp [transformArgs]
        | cons p rest =>
            obtain ⟨k, v⟩ := p
            have h1 : tsizeSlot v ≤ N := by
              simp [tsizeArgs] at hl
              omega
            have h2 : tsizeArgs rest ≤ N := by
              simp [tsizeArgs] at hl
              omega
            rcases hp : transformSlot fn v with ⟨r1, vs1⟩
            have h3 := ihS v h1
            rw [hp] at h3
            simp only at h3
            cases r1 with
            | error er =>
                simp only [transformArgs, hp]
                simp only [Except.error.injEq] at h3 ⊢
                exact h3
            | ok v2 =>
                have hnot1 : ¬∃ n, n ∈ vs1 ∧ fn n = .retNone := by
                  rw [← h3]
                  simp
                rcases hq : transformArgs fn rest with ⟨r2, vs2⟩
                have h4 := ihA rest h2
                rw [hq] at h4
                simp only at h4
                cases r2 with
                | error er2 =>
                    simp only [transformArgs, hp, hq]
                    rw [exists_append_none]
                    constructor
                    · intro hE
                      exact Or.inr (h4.1 hE)
                    · rintro (hE | hE)
                      · exact absurd hE hnot1
                      · exact h4.2 hE
                | ok rest2 =>
                    simp only [transformArgs, hp, hq]
                    refine iff_of_false (by simp) ?_
                    rw [exists_append_none]
                    rintro (hE | hE)
                    · exact absurd hE hnot1
                    · rw [← h4] at hE
                      simp at hE
      · intro v hv
        cases v with
        | vList l =>
            have h1 : tsizeChildren l ≤ N := by
              simp [tsizeSlot] at hv
              omega
            rcases hp : transformChildren fn l with ⟨r, vs⟩
            have h2 := ihC l h1
            rw [hp] at h2
            simp only at h2
            cases r with
            | error er =>
                simp only [transformSlot, hp]
                simp only [Except.error.injEq] at h2 ⊢
                exact h2
            | ok l2 =>
                simp only [transformSlot, hp]
                refine iff_of_false (by simp) ?_
                rw [← h2]
                simp
        | vExpr c =>
            have h1 : tsizeE c ≤ N := by
              simp [tsizeSlot] at hv
              omega
            rcases hp : transformE fn c with ⟨r, vs⟩
            have h2 := ihE c h1
            rw [hp] at h2
            simp only at h2
            cases r with
            | error er =>
                simp only [transformSlot, attachParent, hp]
                simp only [Except.error.injEq] at h2 ⊢
                exact h2
            | ok v2 =>
                have hnot1 : ¬∃ n, n ∈ vs ∧ fn n = .retNone := by
                  rw [← h2]
                  simp
                cases v2 with
                | vExpr m =>
                    simp only [transformSlot, attachParent, hp]
                    exact iff_of_false (by simp) hnot1
                | vTok t =>
                    simp only [transformSlot, attachParent, hp]
                    exact iff_of_false (by simp) hnot1
                | vNone =>
                    simp only [transformSlot, attachParent, hp]
                    exact iff_of_false (by simp) hnot1
                | vStr s =>
                    simp only [transformSlot, attachParent, hp]
                    exact iff_of_false (by simp) hnot1
                | vList ll =>
                    simp only [transformSlot, attachParent, hp]
                    exact iff_of_false (by simp) hnot1
        | vNone => simp [transformSlot]
        | vStr s => simp [transformSlot]
        | vTok t => simp [transformSlot]
      · intro l hl
        cases l with
        | nil => simp [transformChildren]
        | cons c rest =>
            have h2 : tsizeChildren rest ≤ N := by
              cases c <;> simp [tsizeChildren] at hl <;> omega
            rcases hq : transformChildren fn rest with ⟨r2, vs2⟩
            have h4 := ihC rest h2
            rw [hq] at h4
            simp only at h4
            cases c with
            | vExpr cc =>
                have h1 : tsizeE cc ≤ N := by
                  simp [tsizeChildren] at hl
                  omega
                rcases hp : transformE fn cc with ⟨r1, vs1⟩
                have h3 := ihE cc h1
                rw [hp] at h3
                simp only at h3
                cases r1 with
                | error er =>
                    simp only [transformChildren, attachParent, hp]
                    simp only [Except.error.injEq] at h3 ⊢
                    exact h3
                | ok v2 =>
                    have hnot1 : ¬∃ n, n ∈ vs1 ∧ fn n = .retNone := by
                      rw [← h3]
                      simp
                    cases v2 with
                    | vExpr m =>
                        cases r2 with
                        | error er2 =>
                            simp only [transformChildren, attachParent, hp, hq]
                            rw [exists_append_none]
                            constructor
                            · intro hE
                              exact Or.inr (h4.1 hE)
                            · rintro (hE | hE)
                              · exact absurd hE hnot1
                              · exact h4.2 hE
                        | ok rest2 =>
                            simp only [transformChildren, attachParent, hp, hq]
                            refine iff_of_false (by simp) ?_
                            rw [exists_append_none]
                            rintro (hE | hE)
                            · exact absurd hE hnot1
                            · rw [← h4] at hE
                              simp at hE
                    | vTok t =>
                        cases r2 with
                        | error er2 =>
                            simp only [transformChildren, attachParent, hp, hq]
                            rw [exists_append_none]
                            constructor
                            · intro hE
                              exact Or.inr (h4.1 hE)
                            · rintro (hE | hE)
                              · exact absurd hE hnot1
                              · exact h4.2 hE
                        | ok rest2 =>
                            simp only [transformChildren, attachParent, hp, hq]
                            refine iff_of_false (by simp) ?_
                            rw [exists_append_none]
                            rintro (hE | hE)
                            · exact absurd hE hnot1
                            · rw [← h4] at hE
                              simp at hE
                    | vNone =>
                        simp only [transformChildren, attachParent, hp]
                        exact iff_of_false (by simp) hnot1
                    | vStr s =>
                        simp only [transformChildren, attachParent, hp]
                        exact iff_of_false (by simp) hnot1
                    | vList ll =>
                        simp only [transformChildren, attachParent, hp]
                        exact iff_of_false (by simp) hnot1
            | vNone =>
                cases r2 with
                | error er2 =>
                    simp only [transformChildren, hq]
                    simpa using h4
                | ok rest2 =>
                    simp only [transformChildren, hq]
                    refine iff_of_false (by simp) ?_
                    simp only [List.nil_append]
                    rw [← h4]
                    simp
            | vStr s =>
                cases r2 with
                | error er2 =>
                    simp only [transformChildren, hq]
                    simpa using h4
                | ok rest2 =>
                    simp only [transformChildren, hq]
                    refine iff_of_false (by simp) ?_
                    simp only [List.nil_append]
                    rw [← h4]
                    simp
            | vTok t =>
                cases r2 with
                | error er2 =>
                    simp only [transformChildren, hq]
                    simpa using h4
                | ok rest2 =>
                    simp only [transformChildren, hq]
                    refine iff_of_false (by simp) ?_
                    simp only [List.nil_append]
                    rw [← h4]
                    simp
            | vList ll =>
                cases r2 with
                | error er2 =>
                    simp only [transformChildren, hq]
                    simpa using h4
                | ok rest2 =>
                    simp only [transformChildren, hq]
                    refine iff_of_false (by simp) ?_
                    simp only [List.nil_append]
                    rw [← h4]
                    simp

/-- C8 counterexample: `transform` can raise a fatal error even though the
rewrite function never returns an absent value, so "raises a fatal error if
and only if fn returns absent for some visited node" fails in the
only-if direction: a function that replaces a child node with a string
(never returning `None` — second conjunct checks every visited node) makes
`transform` raise the parent re-attachment `AttributeError`. -/
theorem claim_C8_counterexample :
    (transformE (fun e => if Expr.eid e == 2 then FnRes.repl (.vStr "y") else FnRes.same)
        (.mk .expression 1 [("this", .vExpr (.mk .expression 2 []))])).1
      = .error .parentAttrErr
      ∧ ((transformE (fun e => if Expr.eid e == 2 then FnRes.repl (.vStr "y") else FnRes.same)
          (.mk .expression 1 [("this", .vExpr (.mk .expression 2 []))])).2.all
          (fun n =>
            !((fun e => if Expr.eid e == 2 then FnRes.repl (.vStr "y") else FnRes.same)
              n).isRetNone)) = true :=
  ⟨rfl, rfl⟩

/-- C8, amended: `transform` raises the absent-value `ValueError` exactly
when the rewrite function returns an absent value for some visited node (a
node `fn` was actually invoked on during the possibly aborted run) — in
that case no tree is silently returned — and a rewrite function that never
returns an absent value never triggers that `ValueError` (though a
different, attribute error can still occur for non-node child
replacements, see the counterexample). -/
theorem claim_C8 :
    (∀ (fn : Expr → FnRes) (e : Expr),
      ((transformE fn e).1 = .error .noneErr
        ↔ ∃ n, n ∈ (transformE fn e).2 ∧ fn n = .retNone))
      ∧ (∀ (fn : Expr → FnRes) (e : Expr),
        (∀ n, fn n ≠ .retNone) → (transformE fn e).1 ≠ .error .noneErr) := by
  have hmain : ∀ (fn : Expr → FnRes) (e : Expr),
      ((transformE fn e).1 = .error .noneErr
        ↔ ∃ n, n ∈ (transformE fn e).2 ∧ fn n = .retNone) :=
    fun fn e => (transform_none_iff_aux fn (tsizeE e)).1 e le_rfl
  refine ⟨hmain, ?_⟩
  intro fn e h hcon
  rcases (hmain fn e).1 hcon with ⟨n, _, hr⟩
  exact h n hr

/-- C8 witness: the never-absent direction applied to a concrete run — the
constant same-node function on a one-node tree triggers no absent-value
error. -/
theorem claim_C8_witness :
    (transformE (fun _ => FnRes.same) (.mk .expression 3 [])).1
      ≠ .error .noneErr :=
  claim_C8.2 (fun _ => FnRes.same) (.mk .expression 3 [])
    (fun _ hcon => FnRes.noConfusion hcon)

theorem lookupArg_cons_ne (k0 : String) (w : Val) (r : List (String × Val))
    (k : String) (h : ¬(k0 = k)) :
    lookupArg ((k0, w) :: r) k = lookupArg r k := by
  simp [lookupArg, h]

theorem lookupArg_cons_isSome (k0 : String) (v0 : Val) (r : List (String × Val))
    (k : String) (h : (lookupArg r k).isSome = true) :
    (lookupArg ((k0, v0) :: r) k).isSome = true := by
  by_cases hk : k0 == k
  · simp [lookupArg, hk]
  · simp [lookupArg, hk, h]

theorem lookupArg_isSome_iff (a : List (String × Val)) (k : String) :
    (lookupArg a k).isSome = true ↔ k ∈ a.map Prod.fst := by
  induction a with
  | nil => simp [lookupArg]
  | cons p r ih =>
      obtain ⟨k2, v⟩ := p
      by_cases hk : k2 = k
      · simp [lookupArg, hk]
      · rw [lookupArg_cons_ne _ _ _ _ hk]
        simp [ih, hk]
        intro hcon
        exact absurd hcon.symm hk

theorem pyArgsSub_cons_right (a : List (String × Val)) (k0 : String) (w : Val)
    (r2 : List (String × Val)) (h : ∀ k3 ∈ a.map Prod.fst, ¬(k0 = k3)) :
    pyArgsSub a ((k0, w) :: r2) = pyArgsSub a r2 := by
  induction a with
  | nil => simp [pyArgsSub]
  | cons p r ih =>
      obtain ⟨k, v⟩ := p
      have hk : ¬(k0 = k) := h k (by simp)
      rw [pyArgsSub, pyArgsSub, lookupArg_cons_ne _ _ _ _ hk,
        ih (fun k3 hk3 => h k3 (by simp [hk3]))]

theorem pointwise_keys (a b : List (String × Val))
    (h : pyArgsPointwise a b = true) : a.map Prod.fst = b.map Prod.fst := by
  induction a generalizing b with
  | nil =>
      cases b with
      | nil => rfl
      | cons q r2 => simp [pyArgsPointwise] at h
  | cons p r ih =>
      cases b with
      | nil => obtain ⟨k, v⟩ := p; simp [pyArgsPointwise] at h
      | cons q r2 =>
          obtain ⟨k, v⟩ := p
          obtain ⟨k2, w⟩ := q
          rw [pyArgsPointwise, Bool.and_eq_true, Bool.and_eq_true] at h
          obtain ⟨⟨hk, _⟩, hrest⟩ := h
          simp [beq_iff_eq.1 hk, ih r2 hrest]

theorem sameOrdArgs_keys (a b : List (String × Val))
    (h : sameOrdArgs a b = true) : a.map Prod.fst = b.map Prod.fst := by
  induction a generalizing b with
  | nil =>
      cases b with
      | nil => rfl
      | cons q r2 => simp [sameOrdArgs] at h
  | cons p r ih =>
      cases b with
      | nil => obtain ⟨k, v⟩ := p; simp [sameOrdArgs] at h
      | cons q r2 =>
          obtain ⟨k, v⟩ := p
          obtain ⟨k2, w⟩ := q
          rw [sameOrdArgs, Bool.and_eq_true, Bool.and_eq_true] at h
          obtain ⟨⟨hk, _⟩, hrest⟩ := h
          simp [beq_iff_eq.1 hk, ih r2 hrest]

theorem nodupStr_cons_head (k : String) (r : List String)
    (h : nodupStr (k :: r) = true) : k ∉ r := by
  rw [nodupStr, Bool.and_eq_true] at h
  intro hmem
  have h2 := h.1
  rw [Bool.not_eq_eq_eq_not, Bool.not_true] at h2
  have h3 : r.contains k = true := List.elem_eq_true_of_mem hmem
  rw [h2] at h3
  exact Bool.noConfusion h3

theorem nodupStr_cons_tail (k : String) (r : List String)
    (h : nodupStr (k :: r) = true) : nodupStr r = true := by
  rw [nodupStr, Bool.and_eq_true] at h
  exact h.2

/-- Positional dict alignment plus unique keys on the right yields Python
dict equality as the code computes it: every left binding matches by
lookup, and every right key is present on the left. -/
theorem dictEq_of_pointwise (a b : List (String × Val))
    (h : pyArgsPointwise a b = true)
    (hnd : nodupStr (b.map Prod.fst) = true) :
    pyArgsSub a b = true
      ∧ b.all (fun p => (lookupArg a p.1).isSome) = true := by
  induction a generalizing b with
  | nil =>
      cases b with
      | nil => exact ⟨rfl, rfl⟩
      | cons q r2 => simp [pyArgsPointwise] at h
  | cons p r ih =>
      cases b with
      | nil => obtain ⟨k, v⟩ := p; simp [pyArgsPointwise] at h
      | cons q r2 =>
          obtain ⟨k, v⟩ := p
          obtain ⟨k2, w⟩ := q
          rw [pyArgsPointwise, Bool.and_eq_true, Bool.and_eq_true] at h
          obtain ⟨⟨hk, hv⟩, hrest⟩ := h
          have hkeq : k = k2 := beq_iff_eq.1 hk
          have hknotin : k2 ∉ r2.map Prod.fst := by
            have := nodupStr_cons_head k2 (r2.map Prod.fst) (by simpa using hnd)
            exact this
          have hndr : nodupStr (r2.map Prod.fst) = true :=
            nodupStr_cons_tail k2 (r2.map Prod.fst) (by simpa using hnd)
          obtain ⟨ihsub, ihall⟩ := ih r2 hrest hndr
          constructor
          · rw [pyArgsSub]
            have hlook : lookupArg ((k2, w) :: r2) k = some w := by
              simp [lookupArg, hkeq]
            rw [hlook]
            have hskip : pyArgsSub r ((k2, w) :: r2) = pyArgsSub r r2 := by
              refine pyArgsSub_cons_right r k2 w r2 ?_
              intro k3 hk3
              rw [pointwise_keys r r2 hrest] at hk3
              intro hcon
              exact hknotin (hcon ▸ hk3)
            rw [hskip]
            simp [hv, ihsub]
          · rw [List.all_cons, Bool.and_eq_true]
            constructor
            · simp [lookupArg, hkeq]
            · rw [List.all_eq_true]
              intro p2 hp2
              have h2 := (List.all_eq_true.1 ihall) p2 hp2
              exact lookupArg_cons_isSome k v r p2.1 h2

/-- Python dict equality (the lookup half) plus positional key alignment
and unique keys on the right recovers positional value equality. -/
theorem pointwise_of_dictEq (a b : List (String × Val))
    (hsub : pyArgsSub a b = true)
    (hord : sameOrdArgs a b = true)
    (hnd : nodupStr (b.map Prod.fst) = true) :
    pyArgsPointwise a b = true := by
  induction a generalizing b with
  | nil =>
      cases b with
      | nil => rfl
      | cons q r2 => simp [sameOrdArgs] at hord
  | cons p r ih =>
      cases b with
      | nil => obtain ⟨k, v⟩ := p; simp [sameOrdArgs] at hord
      | cons q r2 =>
          obtain ⟨k, v⟩ := p
          obtain ⟨k2, w⟩ := q
          rw [sameOrdArgs, Bool.and_eq_true, Bool.and_eq_true] at hord
          obtain ⟨⟨hk, _⟩, hordrest⟩ := hord
          have hkeq : k = k2 := beq_iff_eq.1 hk
          rw [pyArgsSub] at hsub
          have hlook : lookupArg ((k2, w) :: r2) k = some w := by
            simp [lookupArg, hkeq]
          rw [hlook, Bool.and_eq_true] at hsub
          obtain ⟨hv, hsubrest⟩ := hsub
          have hknotin : k2 ∉ r2.map Prod.fst :=
            nodupStr_cons_head k2 (r2.map Prod.fst) (by simpa using hnd)
          have hndr : nodupStr (r2.map Prod.fst) = true :=
            nodupStr_cons_tail k2 (r2.map Prod.fst) (by simpa using hnd)
          have hskip : pyArgsSub r ((k2, w) :: r2) = pyArgsSub r r2 := by
            refine pyArgsSub_cons_right r k2 w r2 ?_
            intro k3 hk3
            rw [sameOrdArgs_keys r r2 hordrest] at hk3
            intro hcon
            exact hknotin (hcon ▸ hk3)
          rw [hskip] at hsubrest
          rw [pyArgsPointwise, Bool.and_eq_true, Bool.and_eq_true]
          exact ⟨⟨hk, hv⟩, ih r2 hsubrest hordrest hndr⟩

theorem lookupArg_eraseIds (a : List (String × Val)) (k : String) :
    lookupArg (eraseIdsArgs a) k = (lookupArg a k).map eraseIdsV := by
  induction a with
  | nil => simp [eraseIdsArgs, lookupArg]
  | cons p r ih =>
      obtain ⟨k2, v⟩ := p
      by_cases hk : k2 == k
      · simp [eraseIdsArgs, lookupArg, hk]
      · simp [eraseIdsArgs, lookupArg, hk, ih]

theorem token_arg_text_eraseIds (e : Expr) (kd : String) :
    token_arg_text (eraseIdsE e) kd = token_arg_text e kd := by
  cases e with
  | mk k i a =>
      rw [token_arg_text, token_arg_text]
      show (match lookupArg (eraseIdsArgs a) kd with
            | some (.vTok t) => some t.text
            | _ => none)
          = (match lookupArg a kd with
            | some (.vTok t) => some t.text
            | _ => none)
      rw [lookupArg_eraseIds]
      cases hlu : lookupArg a kd with
      | none => rfl
      | some v => cases v <;> simp [eraseIdsV]

theorem litTokenType_eraseIds (e : Expr) :
    (eraseIdsE e).litTokenType = e.litTokenType := by
  cases e with
  | mk k i a =>
      rw [Expr.litTokenType, Expr.litTokenType]
      show (match lookupArg (eraseIdsArgs a) "this" with
            | some (.vTok t) => some t.ttype
            | _ => none)
          = (match lookupArg a "this" with
            | some (.vTok t) => some t.ttype
            | _ => none)
      rw [lookupArg_eraseIds]
      cases hlu : lookupArg a "this" with
      | none => rfl
      | some v => cases v <;> simp [eraseIdsV]

theorem eraseIdsList_map_tokText (l : List Val) :
    ((eraseIdsList l).map (fun v =>
        match v with
        | Val.vTok t => t.text
        | _ => ""))
      = l.map (fun v =>
        match v with
        | Val.vTok t => t.text
        | _ => "") := by
  induction l with
  | nil => rfl
  | cons v r ih => cases v <;> simp [eraseIdsList, eraseIdsV, ih]

theorem colFields_eraseIds (e : Expr) :
    (eraseIdsE e).colFields = e.colFields := by
  cases e with
  | mk k i a =>
      rw [Expr.colFields, Expr.colFields]
      show (match lookupArg (eraseIdsArgs a) "fields" with
            | some (.vList l) => l.map _
            | _ => [])
          = (match lookupArg a "fields" with
            | some (.vList l) => l.map _
            | _ => [])
      rw [lookupArg_eraseIds]
      cases hlu : lookupArg a "fields" with
      | none => rfl
      | some v =>
          cases v with
          | vList l => simp [eraseIdsV, eraseIdsList_map_tokText]
          | vNone => rfl
          | vStr s => rfl
          | vTok t => rfl
          | vExpr e2 => rfl

mutual
/-- Size measure mirroring the equality/erasure/hash recursion over trees
(it also enters lists nested inside list slots), used for inductions where
a functional induction principle is not convenient. -/
def esizeE : Expr → Nat
  | .mk _ _ args => 1 + esizeArgs args
termination_by structural e => e

def esizeArgs : List (String × Val) → Nat
  | [] => 0
  | (_, v) :: r => 1 + esizeV v + esizeArgs r
termination_by structural l => l

def esizeV : Val → Nat
  | .vExpr e => 1 + esizeE e
  | .vList l => 1 + esizeL l
  | _ => 1
termination_by structural v => v

def esizeL : List Val → Nat
  | [] => 0
  | v :: r => 1 + esizeV v + esizeL r
termination_by structural l => l
end

theorem pyEq_of_eraseIds_aux : ∀ N : Nat,
    (∀ e : Expr, esizeE e ≤ N → ∀ y : Expr, eraseIdsE e = eraseIdsE y →
      nodupArgs y = true → pyEqE e y = true)
      ∧ (∀ a : List (String × Val), esizeArgs a ≤ N →
        ∀ b : List (String × Val), eraseIdsArgs a = eraseIdsArgs b →
        nodupArgsA b = true → pyArgsPointwise a b = true)
      ∧ (∀ v : Val, esizeV v ≤ N → ∀ w : Val, eraseIdsV v = eraseIdsV w →
        nodupArgsV w = true → pyValEq v w = true)
      ∧ (∀ l : List Val, esizeL l ≤ N → ∀ m : List Val,
        eraseIdsList l = eraseIdsList m → nodupArgsL m = true →
        pyListEq l m = true) := by
  intro N
  induction N with
  | zero =>
      refine ⟨?_, ?_, ?_, ?_⟩
      · intro e he
        exfalso
        cases e with
        | mk k i a => simp [esizeE] at he
      · intro a ha b hb hnd
        cases a with
        | nil =>
            cases b with
            | nil => rfl
            | cons q r2 => simp [eraseIdsArgs] at hb
        | cons p r =>
            exfalso
            obtain ⟨k, v⟩ := p
            simp [esizeArgs] at ha
      · intro v hv
        exfalso
        cases v <;> simp [esizeV] at hv
      · intro l hl m hm hnd
        cases l with
        | nil =>
            cases m with
            | nil => rfl
            | cons w r2 => simp [eraseIdsList] at hm
        | cons v r =>
            exfalso
            simp [esizeL] at hl
  | succ N ih =>
      obtain ⟨ihE, ihA, ihV, ihL⟩ := ih
      refine ⟨?_, ?_, ?_, ?_⟩
      · intro e he y hy hnd
        cases e with
        | mk k i a =>
            cases y with
            | mk k2 j b =>
                rw [eraseIdsE, eraseIdsE, Expr.mk.injEq] at hy
                obtain ⟨hk, -, hab⟩ := hy
                subst hk
                rw [nodupArgs, Bool.and_eq_true] at hnd
                obtain ⟨hndk, hnda⟩ := hnd
                have ha : esizeArgs a ≤ N := by
                  simp [esizeE] at he
                  omega
                have hpw : pyArgsPointwise a b = true := ihA a ha b hab hnda
                have herase : eraseIdsE (.mk k i a) = eraseIdsE (.mk k j b) := by
                  rw [eraseIdsE, eraseIdsE, hab]
                cases k with
                | column =>
                    have hn : Expr.colName (.mk .column i a) = Expr.colName (.mk .column j b) := by
                      rw [Expr.colName, Expr.colName, ← token_arg_text_eraseIds,
                        herase, token_arg_text_eraseIds]
                    have ht : Expr.colTable (.mk .column i a) = Expr.colTable (.mk .column j b) := by
                      rw [Expr.colTable, Expr.colTable, ← token_arg_text_eraseIds,
                        herase, token_arg_text_eraseIds]
                    have hd : Expr.colDb (.mk .column i a) = Expr.colDb (.mk .column j b) := by
                      rw [Expr.colDb, Expr.colDb, ← token_arg_text_eraseIds,
                        herase, token_arg_text_eraseIds]
                    have hf : Expr.colFields (.mk .column i a) = Expr.colFields (.mk .column j b) := by
                      rw [← colFields_eraseIds, herase, colFields_eraseIds]
                    simp [pyEqE, columnEqB, Expr.kind, hn, ht, hd, hf]
                | literal =>
                    have hn : Expr.litText (.mk .literal i a) = Expr.litText (.mk .literal j b) := by
                      rw [Expr.litText, Expr.litText, ← token_arg_text_eraseIds,
                        herase, token_arg_text_eraseIds]
                    have ht : Expr.litTokenType (.mk .literal i a)
                        = Expr.litTokenType (.mk .literal j b) := by
                      rw [← litTokenType_eraseIds, herase, litTokenType_eraseIds]
                    simp [pyEqE, literalEqB, Expr.kind, hn, ht]
                | expression =>
                    obtain ⟨hsub, hall⟩ := dictEq_of_pointwise a b hpw (by
                      simpa [nodupArgs] using hndk)
                    simp [pyEqE, hsub, hall]
                | map =>
                    obtain ⟨hsub, hall⟩ := dictEq_of_pointwise a b hpw (by
                      simpa [nodupArgs] using hndk)
                    simp [pyEqE, hsub, hall]
                | coalesce =>
                    obtain ⟨hsub, hall⟩ := dictEq_of_pointwise a b hpw (by
                      simpa [nodupArgs] using hndk)
                    simp [pyEqE, hsub, hall]
      · intro a ha b hb hnd
        cases a with
        | nil =>
            cases b with
            | nil => rfl
            | cons q r2 => simp [eraseIdsArgs] at hb
        | cons p r =>
            cases b with
            | nil =>
                obtain ⟨k, v⟩ := p
                simp [eraseIdsArgs] at hb
            | cons q r2 =>
                obtain ⟨k, v⟩ := p
                obtain ⟨k2, w⟩ := q
                rw [eraseIdsArgs, eraseIdsArgs, List.cons.injEq, Prod.mk.injEq] at hb
                obtain ⟨⟨hk, hvw⟩, hrest⟩ := hb
                rw [nodupArgsA, Bool.and_eq_true] at hnd
                have h1 : esizeV v ≤ N := by
                  simp [esizeArgs] at ha
                  omega
                have h2 : esizeArgs r ≤ N := by
                  simp [esizeArgs] at ha
                  omega
                rw [pyArgsPointwise, Bool.and_eq_true, Bool.and_eq_true]
                exact ⟨⟨by simp [hk], ihV v h1 w hvw hnd.1⟩, ihA r h2 r2 hrest hnd.2⟩
      · intro v hv w hw hnd
        cases v with
        | vNone =>
            cases w <;> simp [eraseIdsV] at hw <;> simp [pyValEq]
        | vStr s =>
            cases w <;> simp [eraseIdsV] at hw <;> simp [pyValEq, hw]
        | vTok t =>
            cases w <;> simp [eraseIdsV] at hw <;> simp [pyValEq, hw]
        | vExpr a =>
            cases w with
            | vExpr b =>
                rw [eraseIdsV, eraseIdsV, Val.vExpr.injEq] at hw
                have h1 : esizeE a ≤ N := by
                  simp [esizeV] at hv
                  omega
                rw [pyValEq]
                exact ihE a h1 b hw (by simpa [nodupArgsV] using hnd)
            | vNone => simp [eraseIdsV] at hw
            | vStr s => simp [eraseIdsV] at hw
            | vTok t => simp [eraseIdsV] at hw
            | vList m => simp [eraseIdsV] at hw
        | vList l =>
            cases w with
            | vList m =>
                rw [eraseIdsV, eraseIdsV, Val.vList.injEq] at hw
                have h1 : esizeL l ≤ N := by
                  simp [esizeV] at hv
                  omega
                rw [pyValEq]
                exact ihL l h1 m hw (by simpa [nodupArgsV] using hnd)
            | vNone => simp [eraseIdsV] at hw
            | vStr s => simp [eraseIdsV] at hw
            | vTok t => simp [eraseIdsV] at hw
            | vExpr b => simp [eraseIdsV] at hw
      · intro l hl m hm hnd
        cases l with
        | nil =>
            cases m with
            | nil => rfl
            | cons w r2 => simp [eraseIdsList] at hm
        | cons v r =>
            cases m with
            | nil => simp [eraseIdsList] at hm
            | cons w r2 =>
                rw [eraseIdsList, eraseIdsList, List.cons.injEq] at hm
                rw [nodupArgsL, Bool.and_eq_true] at hnd
                have h1 : esizeV v ≤ N := by
                  simp [esizeL] at hl
                  omega
                have h2 : esizeL r ≤ N := by
                  simp [esizeL] at hl
                  omega
                rw [pyListEq, Bool.and_eq_true]
                exact ⟨ihV v h1 w hm.1 hnd.1, ihL r h2 r2 hm.2 hnd.2⟩

/-- Trees with equal id-erasures are Python-equal (given unique dict keys in
the right tree): Python `==` never reads object identities, so a
structurally identical tree of different objects compares equal at every
variant, including the `Column` and `Literal` overrides. -/
theorem pyEq_of_eraseIds_eq (e y : Expr) (h : eraseIdsE e = eraseIdsE y)
    (hnd : nodupArgs y = true) : pyEqE e y = true :=
  (pyEq_of_eraseIds_aux (esizeE e)).1 e le_rfl y h hnd

theorem deepcopy_erase_aux : ∀ N : Nat,
    (∀ e : Expr, esizeE e ≤ N → ∀ c : Nat,
      eraseIdsE ((deepcopyE c e).1) = eraseIdsE e)
      ∧ (∀ a : List (String × Val), esizeArgs a ≤ N → ∀ c : Nat,
        eraseIdsArgs ((deepcopyArgs c a).1) = eraseIdsArgs a)
      ∧ (∀ v : Val, esizeV v ≤ N → ∀ c : Nat,
        eraseIdsV ((deepcopyV c v).1) = eraseIdsV v)
      ∧ (∀ l : List Val, esizeL l ≤ N → ∀ c : Nat,
        eraseIdsList ((deepcopyList c l).1) = eraseIdsList l) := by
  intro N
  induction N with
  | zero =>
      refine ⟨?_, ?_, ?_, ?_⟩
      · intro e he
        exfalso
        cases e with
        | mk k i a => simp [esizeE] at he
      · intro a ha c
        cases a with
        | nil => rfl
        | cons p r =>
            exfalso
            obtain ⟨k, v⟩ := p
            simp [esizeArgs] at ha
      · intro v hv
        exfalso
        cases v <;> simp [esizeV] at hv
      · intro l hl c
        cases l with
        | nil => rfl
        | cons v r =>
            exfalso
            simp [esizeL] at hl
  | succ N ih =>
      obtain ⟨ihE, ihA, ihV, ihL⟩ := ih
      refine ⟨?_, ?_, ?_, ?_⟩
      · intro e he c
        cases e with
        | mk k i a =>
            have ha : esizeArgs a ≤ N := by
              simp [esizeE] at he
              omega
            rcases hp : deepcopyArgs (c + 1) a with ⟨a2, c2⟩
            have h2 := ihA a ha (c + 1)
            rw [hp] at h2
            simp only at h2
            simp [deepcopyE, hp, eraseIdsE, h2]
      · intro a ha c
        cases a with
        | nil => rfl
        | cons p r =>
            obtain ⟨k, v⟩ := p
            have h1 : esizeV v ≤ N := by
              simp [esizeArgs] at ha
              omega
            have h2 : esizeArgs r ≤ N := by
              simp [esizeArgs] at ha
              omega
            rcases hp : deepcopyV c v with ⟨v2, c2⟩
            rcases hq : deepcopyArgs c2 r with ⟨r2, c3⟩
            have h3 := ihV v h1 c
            have h4 := ihA r h2 c2
            rw [hp] at h3
            rw [hq] at h4
            simp only at h3 h4
            simp [deepcopyArgs, hp, hq, eraseIdsArgs, h3, h4]
      · intro v hv c
        cases v with
        | vExpr e =>
            have h1 : esizeE e ≤ N := by
              simp [esizeV] at hv
              omega
            rcases hp : deepcopyE c e with ⟨e2, c2⟩
            have h2 := ihE e h1 c
            rw [hp] at h2
            simp only at h2
            simp [deepcopyV, hp, eraseIdsV, h2]
        | vList l =>
            have h1 : esizeL l ≤ N := by
              simp [esizeV] at hv
              omega
            rcases hp : deepcopyList c l with ⟨l2, c2⟩
            have h2 := ihL l h1 c
            rw [hp] at h2
            simp only at h2
            simp [deepcopyV, hp, eraseIdsV, h2]
        | vNone => rfl
        | vStr s => rfl
        | vTok t => rfl
      · intro l hl c
        cases l with
        | nil => rfl
        | cons v r =>
            have h1 : esizeV v ≤ N := by
              simp [esizeL] at hl
              omega
            have h2 : esizeL r ≤ N := by
              simp [esizeL] at hl
              omega
            rcases hp : deepcopyV c v with ⟨v2, c2⟩
            rcases hq : deepcopyList c2 r with ⟨r2, c3⟩
            have h3 := ihV v h1 c
            have h4 := ihL r h2 c2
            rw [hp] at h3
            rw [hq] at h4
            simp only at h3 h4
            simp [deepcopyList, hp, hq, eraseIdsList, h3, h4]

theorem deepcopy_erase (c : Nat) (e : Expr) :
    eraseIdsE ((deepcopyE c e).1) = eraseIdsE e :=
  (deepcopy_erase_aux (esizeE e)).1 e le_rfl c

theorem deepcopy_fresh_aux : ∀ N : Nat,
    (∀ e : Expr, esizeE e ≤ N → ∀ c : Nat,
      c ≤ (deepcopyE c e).2
        ∧ ∀ j, j ∈ idsE ((deepcopyE c e).1) → c ≤ j)
      ∧ (∀ a : List (String × Val), esizeArgs a ≤ N → ∀ c : Nat,
        c ≤ (deepcopyArgs c a).2
          ∧ ∀ j, j ∈ idsArgs ((deepcopyArgs c a).1) → c ≤ j)
      ∧ (∀ v : Val, esizeV v ≤ N → ∀ c : Nat,
        c ≤ (deepcopyV c v).2
          ∧ ∀ j, j ∈ idsV ((deepcopyV c v).1) → c ≤ j)
      ∧ (∀ l : List Val, esizeL l ≤ N → ∀ c : Nat,
        c ≤ (deepcopyList c l).2
          ∧ ∀ j, j ∈ idsList ((deepcopyList c l).1) → c ≤ j) := by
  intro N
  induction N with
  | zero =>
      refine ⟨?_, ?_, ?_, ?_⟩
      · intro e he
        exfalso
        cases e with
        | mk k i a => simp [esizeE] at he
      · intro a ha c
        cases a with
        | nil => exact ⟨le_rfl, by simp [deepcopyArgs, idsArgs]⟩
        | cons p r =>
            exfalso
            obtain ⟨k, v⟩ := p
            simp [esizeArgs] at ha
      · intro v hv
        exfalso
        cases v <;> simp [esizeV] at hv
      · intro l hl c
        cases l with
        | nil => exact ⟨le_rfl, by simp [deepcopyList, idsList]⟩
        | cons v r =>
            exfalso
            simp [esizeL] at hl
  | succ N ih =>
      obtain ⟨ihE, ihA, ihV, ihL⟩ := ih
      refine ⟨?_, ?_, ?_, ?_⟩
      · intro e he c
        cases e with
        | mk k i a =>
            have ha : esizeArgs a ≤ N := by
              simp [esizeE] at he
              omega
            rcases hp : deepcopyArgs (c + 1) a with ⟨a2, c2⟩
            have h2 := ihA a ha (c + 1)
            rw [hp] at h2
            simp only at h2
            constructor
            · simp only [deepcopyE, hp]
              omega
            · intro j hj
              simp only [deepcopyE, hp, idsE, List.mem_cons] at hj
              rcases hj with hj | hj
              · omega
              · have := h2.2 j hj
                omega
      · intro a ha c
        cases a with
        | nil => exact ⟨le_rfl, by simp [deepcopyArgs, idsArgs]⟩
        | cons p r =>
            obtain ⟨k, v⟩ := p
            have h1 : esizeV v ≤ N := by
              simp [esizeArgs] at ha
              omega
            have h2 : esizeArgs r ≤ N := by
              simp [esizeArgs] at ha
              omega
            rcases hp : deepcopyV c v with ⟨v2, c2⟩
            rcases hq : deepcopyArgs c2 r with ⟨r2, c3⟩
            have h3 := ihV v h1 c
            have h4 := ihA r h2 c2
            rw [hp] at h3
            rw [hq] at h4
            simp only at h3 h4
            constructor
            · simp only [deepcopyArgs, hp, hq]
              omega
            · intro j hj
              simp only [deepcopyArgs, hp, hq, idsArgs, List.mem_append] at hj
              rcases hj with hj | hj
              · exact h3.2 j hj
              · have := h4.2 j hj
                omega
      · intro v hv c
        cases v with
        | vExpr e =>
            have h1 : esizeE e ≤ N := by
              simp [esizeV] at hv
              omega
            rcases hp : deepcopyE c e with ⟨e2, c2⟩
            have h2 := ihE e h1 c
            rw [hp] at h2
            simp only at h2
            exact ⟨by simp only [deepcopyV, hp]; exact h2.1,
              fun j hj => h2.2 j (by simpa [deepcopyV, hp, idsV] using hj)⟩
        | vList l =>
            have h1 : esizeL l ≤ N := by
              simp [esizeV] at hv
              omega
            rcases hp : deepcopyList c l with ⟨l2, c2⟩
            have h2 := ihL l h1 c
            rw [hp] at h2
            simp only at h2
            exact ⟨by simp only [deepcopyV, hp]; exact h2.1,
              fun j hj => h2.2 j (by simpa [deepcopyV, hp, idsV] using hj)⟩
        | vNone => exact ⟨le_rfl, by simp [deepcopyV, idsV]⟩
        | vStr s => exact ⟨le_rfl, by simp [deepcopyV, idsV]⟩
        | vTok t => exact ⟨le_rfl, by simp [deepcopyV, idsV]⟩
      · intro l hl c
        cases l with
        | nil => exact ⟨le_rfl, by simp [deepcopyList, idsList]⟩
        | cons v r =>
            have h1 : esizeV v ≤ N := by
              simp [esizeL] at hl
              omega
            have h2 : esizeL r ≤ N := by
              simp [esizeL] at hl
              omega
            rcases hp : deepcopyV c v with ⟨v2, c2⟩
            rcases hq : deepcopyList c2 r with ⟨r2, c3⟩
            have h3 := ihV v h1 c
            have h4 := ihL r h2 c2
            rw [hp] at h3
            rw [hq] at h4
            simp only at h3 h4
            constructor
            · simp only [deepcopyList, hp, hq]
              omega
            · intro j hj
              simp only [deepcopyList, hp, hq, idsList, List.mem_append] at hj
              rcases hj with hj | hj
              · exact h3.2 j hj
              · have := h4.2 j hj
                omega

theorem deepcopy_fresh (c : Nat) (e : Expr) :
    ∀ j, j ∈ idsE ((deepcopyE c e).1) → c ≤ j :=
  ((deepcopy_fresh_aux (esizeE e)).1 e le_rfl c).2

theorem mutAt_notin_aux : ∀ N : Nat,
    (∀ e : Expr, esizeE e ≤ N →
      ∀ (i : Nat) (f : List (String × Val) → List (String × Val)),
      i ∉ idsE e → mutAtE i f e = e)
      ∧ (∀ a : List (String × Val), esizeArgs a ≤ N →
        ∀ (i : Nat) (f : List (String × Val) → List (String × Val)),
        i ∉ idsArgs a → mutAtArgs i f a = a)
      ∧ (∀ v : Val, esizeV v ≤ N →
        ∀ (i : Nat) (f : List (String × Val) → List (String × Val)),
        i ∉ idsV v → mutAtV i f v = v)
      ∧ (∀ l : List Val, esizeL l ≤ N →
        ∀ (i : Nat) (f : List (String × Val) → List (String × Val)),
        i ∉ idsList l → mutAtList i f l = l) := by
  intro N
  induction N with
  | zero =>
      refine ⟨?_, ?_, ?_, ?_⟩
      · intro e he
        exfalso
        cases e with
        | mk k i a => simp [esizeE] at he
      · intro a ha i f hi
        cases a with
        | nil => rfl
        | cons p r =>
            exfalso
            obtain ⟨k, v⟩ := p
            simp [esizeArgs] at ha
      · intro v hv
        exfalso
        cases v <;> simp [esizeV] at hv
      · intro l hl i f hi
        cases l with
        | nil => rfl
        | cons v r =>
            exfalso
            simp [esizeL] at hl
  | succ N ih =>
      obtain ⟨ihE, ihA, ihV, ihL⟩ := ih
      refine ⟨?_, ?_, ?_, ?_⟩
      · intro e he i f hi
        cases e with
        | mk k j a =>
            have ha : esizeArgs a ≤ N := by
              simp [esizeE] at he
              omega
            rw [idsE, List.mem_cons] at hi
            push_neg at hi
            have hj : (j == i) = false := by
              rw [beq_eq_false_iff_ne]
              exact fun hcon => hi.1 (hcon ▸ rfl)
            rw [mutAtE, ihA a ha i f hi.2, hj]
            simp
      · intro a ha i f hi
        cases a with
        | nil => rfl
        | cons p r =>
            obtain ⟨k, v⟩ := p
            have h1 : esizeV v ≤ N := by
              simp [esizeArgs] at ha
              omega
            have h2 : esizeArgs r ≤ N := by
              simp [esizeArgs] at ha
              omega
            rw [idsArgs, List.mem_append] at hi
            push_neg at hi
            rw [mutAtArgs, ihV v h1 i f hi.1, ihA r h2 i f hi.2]
      · intro v hv i f hi
        cases v with
        | vExpr e =>
            have h1 : esizeE e ≤ N := by
              simp [esizeV] at hv
              omega
            rw [mutAtV, ihE e h1 i f (by simpa [idsV] using hi)]
        | vList l =>
            have h1 : esizeL l ≤ N := by
              simp [esizeV] at hv
              omega
            rw [mutAtV, ihL l h1 i f (by simpa [idsV] using hi)]
        | vNone => rfl
        | vStr s => rfl
        | vTok t => rfl
      · intro l hl i f hi
        cases l with
        | nil => rfl
        | cons v r =>
            have h1 : esizeV v ≤ N := by
              simp [esizeL] at hl
              omega
            have h2 : esizeL r ≤ N := by
              simp [esizeL] at hl
              omega
            rw [idsList, List.mem_append] at hi
            push_neg at hi
            rw [mutAtList, ihV v h1 i f hi.1, ihL r h2 i f hi.2]

theorem mutAt_notin (e : Expr) (i : Nat)
    (f : List (String × Val) → List (String × Val)) (hi : i ∉ idsE e) :
    mutAtE i f e = e :=
  (mutAt_notin_aux (esizeE e)).1 e le_rfl i f hi

/-- C6: `transform` with the identity rewrite function (one returning the
node it was given, unmodified) and `copy=True` returns a tree that is
Python-equal to the original but consists entirely of fresh objects sharing
no state with it: given identity tags all below the clone counter, the
result is the deep clone, it compares `==` to the original, its tag set is
disjoint from the original's, and mutating any object of either tree (by
tag) leaves the other tree unchanged. -/
theorem claim_C6 (e : Expr) (c : Nat) (hnd : nodupArgs e = true)
    (hlt : ∀ j ∈ idsE e, j < c) :
    (transform (fun _ => FnRes.same) true e c).1 = .ok (.vExpr ((deepcopyE c e).1))
      ∧ pyEqE ((deepcopyE c e).1) e = true
      ∧ (∀ j, j ∈ idsE ((deepcopyE c e).1) → j ∉ idsE e)
      ∧ (∀ (j : Nat) (f : List (String × Val) → List (String × Val)),
          j ∈ idsE ((deepcopyE c e).1) → mutAtE j f e = e)
      ∧ (∀ (j : Nat) (f : List (String × Val) → List (String × Val)),
          j ∈ idsE e → mutAtE j f ((deepcopyE c e).1) = (deepcopyE c e).1) := by
  have hfresh := deepcopy_fresh c e
  have hdisj : ∀ j, j ∈ idsE ((deepcopyE c e).1) → j ∉ idsE e := by
    intro j hj hje
    exact absurd (hlt j hje) (not_lt.2 (hfresh j hj))
  refine ⟨?_, ?_, hdisj, ?_, ?_⟩
  · rw [transform]
    simp only [if_pos]
    exact transform_id ((deepcopyE c e).1)
  · exact pyEq_of_eraseIds_eq ((deepcopyE c e).1) e (deepcopy_erase c e) hnd
  · intro j f hj
    exact mutAt_notin e j f (hdisj j hj)
  · intro j f hj
    refine mutAt_notin ((deepcopyE c e).1) j f ?_
    intro hc
    exact absurd (hlt j hj) (not_lt.2 (hfresh j hc))

/-- C6 witness: the copying identity transform on a concrete two-node tree
returns the fresh clone, and the clone compares equal to the original. -/
theorem claim_C6_witness :
    (transform (fun _ => FnRes.same) true
        (.mk .expression 0 [("this", .vExpr (.mk .expression 1 []))]) 5).1
      = .ok (.vExpr ((deepcopyE 5
          (.mk .expression 0 [("this", .vExpr (.mk .expression 1 []))])).1))
      ∧ pyEqE ((deepcopyE 5
          (.mk .expression 0 [("this", .vExpr (.mk .expression 1 []))])).1)
          (.mk .expression 0 [("this", .vExpr (.mk .expression 1 []))]) = true := by
  have h := claim_C6 (.mk .expression 0 [("this", .vExpr (.mk .expression 1 []))]) 5
    rfl (by decide)
  exact ⟨h.1, h.2.1⟩

theorem hashEq_of_pyEq_aux : ∀ N : Nat,
    (∀ x : Expr, esizeE x ≤ N → ∀ y : Expr, pyEqE x y = true →
      sameOrdE x y = true → nodupArgs y = true → pyHashE x = pyHashE y)
      ∧ (∀ a : List (String × Val), esizeArgs a ≤ N →
        ∀ b : List (String × Val), pyArgsPointwise a b = true →
        sameOrdArgs a b = true → nodupArgsA b = true →
        pyHashArgs a = pyHashArgs b)
      ∧ (∀ v : Val, esizeV v ≤ N → ∀ w : Val, pyValEq v w = true →
        sameOrdV v w = true → nodupArgsV w = true →
        pyHashSlot v = pyHashSlot w ∧ pyHashV v = pyHashV w)
      ∧ (∀ l : List Val, esizeL l ≤ N → ∀ m : List Val, pyListEq l m = true →
        sameOrdList l m = true → nodupArgsL m = true →
        pyHashList l = pyHashList m) := by
  intro N
  induction N with
  | zero =>
      refine ⟨?_, ?_, ?_, ?_⟩
      · intro x hx
        exfalso
        cases x with
        | mk k i a => simp [esizeE] at hx
      · intro a ha b hb hord hnd
        cases a with
        | nil =>
            cases b with
            | nil => rfl
            | cons q r2 => simp [pyArgsPointwise] at hb
        | cons p r =>
            exfalso
            obtain ⟨k, v⟩ := p
            simp [esizeArgs] at ha
      · intro v hv
        exfalso
        cases v <;> simp [esizeV] at hv
      · intro l hl m hm hord hnd
        cases l with
        | nil =>
            cases m with
            | nil => rfl
            | cons w r2 => simp [pyListEq] at hm
        | cons v r =>
            exfalso
            simp [esizeL] at hl
  | succ N ih =>
      obtain ⟨ihE, ihA, ihV, ihL⟩ := ih
      refine ⟨?_, ?_, ?_, ?_⟩
      · intro x hx y heq hord hnd
        cases x with
        | mk k i a =>
            cases y with
            | mk k2 j b =>
                have ha : esizeArgs a ≤ N := by
                  simp [esizeE] at hx
                  omega
                cases k with
                | column =>
                    rw [pyEqE, columnEqB, Bool.and_eq_true, Bool.and_eq_true,
                      Bool.and_eq_true, Bool.and_eq_true] at heq
                    obtain ⟨⟨⟨⟨hky, hn⟩, ht⟩, hd⟩, hf⟩ := heq
                    have hk2 : k2 = .column := beq_iff_eq.1 hky
                    subst hk2
                    have hfq : (Expr.colFields (.mk .column i a)).map
                        (fun f => quoteStr (pyUpper f))
                        = (Expr.colFields (.mk .column j b)).map
                          (fun f => quoteStr (pyUpper f)) := by
                      have h5 := congrArg (List.map quoteStr) (beq_iff_eq.1 hf)
                      simpa [List.map_map, Function.comp] using h5
                    simp only [pyHashE, beq_iff_eq.1 hn, beq_iff_eq.1 ht,
                      beq_iff_eq.1 hd, hfq, Expr.key, Expr.kind, kindKey]
                | literal =>
                    rw [pyEqE, literalEqB, Bool.and_eq_true, Bool.and_eq_true] at heq
                    obtain ⟨⟨hky, hn⟩, -⟩ := heq
                    have hk2 : k2 = .literal := beq_iff_eq.1 hky
                    subst hk2
                    simp only [pyHashE, beq_iff_eq.1 hn, Expr.key, Expr.kind, kindKey]
                | expression =>
                    have heq2 : ((EKind.expression == k2) && pyArgsSub a b
                        && b.all (fun p => (lookupArg a p.1).isSome)) = true := heq
                    rw [Bool.and_eq_true, Bool.and_eq_true] at heq2
                    obtain ⟨⟨hky, hsub⟩, -⟩ := heq2
                    have hk2 : k2 = .expression := (beq_iff_eq.1 hky).symm
                    subst hk2
                    rw [nodupArgs, Bool.and_eq_true] at hnd
                    have hordA : sameOrdArgs a b = true := by
                      simpa [sameOrdE] using hord
                    have hpw := pointwise_of_dictEq a b hsub hordA (by
                      simpa using hnd.1)
                    have hargs := ihA a ha b hpw hordA hnd.2
                    show hashTup [quoteStr (kindKey EKind.expression),
                        hashTup (pyHashArgs a)]
                      = hashTup [quoteStr (kindKey EKind.expression),
                        hashTup (pyHashArgs b)]
                    rw [hargs]
                | map =>
                    have heq2 : ((EKind.map == k2) && pyArgsSub a b
                        && b.all (fun p => (lookupArg a p.1).isSome)) = true := heq
                    rw [Bool.and_eq_true, Bool.and_eq_true] at heq2
                    obtain ⟨⟨hky, hsub⟩, -⟩ := heq2
                    have hk2 : k2 = .map := (beq_iff_eq.1 hky).symm
                    subst hk2
                    rw [nodupArgs, Bool.and_eq_true] at hnd
                    have hordA : sameOrdArgs a b = true := by
                      simpa [sameOrdE] using hord
                    have hpw := pointwise_of_dictEq a b hsub hordA (by
                      simpa using hnd.1)
                    have hargs := ihA a ha b hpw hordA hnd.2
                    show hashTup [quoteStr (kindKey EKind.map),
                        hashTup (pyHashArgs a)]
                      = hashTup [quoteStr (kindKey EKind.map),
                        hashTup (pyHashArgs b)]
                    rw [hargs]
                | coalesce =>
                    have heq2 : ((EKind.coalesce == k2) && pyArgsSub a b
                        && b.all (fun p => (lookupArg a p.1).isSome)) = true := heq
                    rw [Bool.and_eq_true, Bool.and_eq_true] at heq2
                    obtain ⟨⟨hky, hsub⟩, -⟩ := heq2
                    have hk2 : k2 = .coalesce := (beq_iff_eq.1 hky).symm
                    subst hk2
                    rw [nodupArgs, Bool.and_eq_true] at hnd
                    have hordA : sameOrdArgs a b = true := by
                      simpa [sameOrdE] using hord
                    have hpw := pointwise_of_dictEq a b hsub hordA (by
                      simpa using hnd.1)
                    have hargs := ihA a ha b hpw hordA hnd.2
                    show hashTup [quoteStr (kindKey EKind.coalesce),
                        hashTup (pyHashArgs a)]
                      = hashTup [quoteStr (kindKey EKind.coalesce),
                        hashTup (pyHashArgs b)]
                    rw [hargs]
      · intro a ha b hb hord hnd
        cases a with
        | nil =>
            cases b with
            | nil => rfl
            | cons q r2 => simp [pyArgsPointwise] at hb
        | cons p r =>
            cases b with
            | nil =>
                obtain ⟨k, v⟩ := p
                simp [pyArgsPointwise] at hb
            | cons q r2 =>
                obtain ⟨k, v⟩ := p
                obtain ⟨k2, w⟩ := q
                rw [pyArgsPointwise, Bool.and_eq_true, Bool.and_eq_true] at hb
                obtain ⟨⟨hk, hv⟩, hrest⟩ := hb
                rw [sameOrdArgs, Bool.and_eq_true, Bool.and_eq_true] at hord
                rw [nodupArgsA, Bool.and_eq_true] at hnd
                have h1 : esizeV v ≤ N := by
                  simp [esizeArgs] at ha
                  omega
                have h2 : esizeArgs r ≤ N := by
                  simp [esizeArgs] at ha
                  omega
                have hslot := (ihV v h1 w hv hord.1.2 hnd.1).1
                rw [pyHashArgs, pyHashArgs, beq_iff_eq.1 hk, hslot,
                  ihA r h2 r2 hrest hord.2 hnd.2]
      · intro v hv w hveq hord hnd
        cases v with
        | vNone =>
            cases w <;> simp [pyValEq] at hveq
            exact ⟨rfl, rfl⟩
        | vStr s =>
            cases w <;> simp [pyValEq] at hveq
            subst hveq
            exact ⟨rfl, rfl⟩
        | vTok t =>
            cases w <;> simp [pyValEq] at hveq
            subst hveq
            exact ⟨rfl, rfl⟩
        | vExpr a =>
            cases w with
            | vExpr b =>
                rw [pyValEq] at hveq
                have h1 : esizeE a ≤ N := by
                  simp [esizeV] at hv
                  omega
                have hE := ihE a h1 b hveq (by simpa [sameOrdV] using hord)
                  (by simpa [nodupArgsV] using hnd)
                exact ⟨by simp [pyHashSlot, hE], by simp [pyHashV, hE]⟩
            | vNone => simp [pyValEq] at hveq
            | vStr s => simp [pyValEq] at hveq
            | vTok t => simp [pyValEq] at hveq
            | vList m => simp [pyValEq] at hveq
        | vList l =>
            cases w with
            | vList m =>
                rw [pyValEq] at hveq
                have h1 : esizeL l ≤ N := by
                  simp [esizeV] at hv
                  omega
                have hL := ihL l h1 m hveq (by simpa [sameOrdV] using hord)
                  (by simpa [nodupArgsV] using hnd)
                exact ⟨by simp [pyHashSlot, hL], by simp [pyHashV]⟩
            | vNone => simp [pyValEq] at hveq
            | vStr s => simp [pyValEq] at hveq
            | vTok t => simp [pyValEq] at hveq
            | vExpr b => simp [pyValEq] at hveq
      · intro l hl m hm hord hnd
        cases l with
        | nil =>
            cases m with
            | nil => rfl
            | cons w r2 => simp [pyListEq] at hm
        | cons v r =>
            cases m with
            | nil => simp [pyListEq] at hm
            | cons w r2 =>
                rw [pyListEq, Bool.and_eq_true] at hm
                rw [sameOrdList, Bool.and_eq_true] at hord
                rw [nodupArgsL, Bool.and_eq_true] at hnd
                have h1 : esizeV v ≤ N := by
                  simp [esizeL] at hl
                  omega
                have h2 : esizeL r ≤ N := by
                  simp [esizeL] at hl
                  omega
                rw [pyHashList, pyHashList, (ihV v h1 w hm.1 hord.1 hnd.1).2,
                  ihL r h2 r2 hm.2 hord.2 hnd.2]

/-- C10 counterexample: generic equality is dict equality, which ignores
insertion order, while the generic hash input reads the args pairs in
insertion order; two `Expression` nodes with the same bindings inserted in
different orders compare equal but feed different tuples to `hash`, so
equal hashes are not guaranteed. -/
theorem claim_C10_counterexample :
    pyEqE (.mk .expression 0 [("this", .vStr "a"), ("w", .vStr "b")])
        (.mk .expression 0 [("w", .vStr "b"), ("this", .vStr "a")]) = true
      ∧ pyHashE (.mk .expression 0 [("this", .vStr "a"), ("w", .vStr "b")])
        ≠ pyHashE (.mk .expression 0 [("w", .vStr "b"), ("this", .vStr "a")]) :=
  ⟨rfl, by decide⟩

/-- C10, amended: equality implies hash-input equality for every variant —
`Column` and `Literal` unconditionally (`Literal`'s hash reads
`self.token_type`, the class attribute `None`, not the wrapped token's
kind, so it is coarser than `Literal` equality and thus consistent) — and
for generic variants whenever the two nodes' (recursively corresponding)
args dicts also list their keys in the same insertion order; without that
alignment the generic hash can differ on equal nodes (see the
counterexample). -/
theorem claim_C10 :
    ∀ x y : Expr, pyEqE x y = true → sameOrdE x y = true →
      nodupArgs y = true → pyHashE x = pyHashE y :=
  fun x y h1 h2 h3 => (hashEq_of_pyEq_aux (esizeE x)).1 x le_rfl y h1 h2 h3

/-- C10 witness: two equal nodes (differing only in object identity) with
aligned key order have equal hash inputs; also covers a `Literal` pair
whose equality forces equal hash inputs. -/
theorem claim_C10_witness :
    pyHashE (.mk .expression 0 [("this", .vStr "a")])
      = pyHashE (.mk .expression 7 [("this", .vStr "a")])
      ∧ pyHashE (.mk .literal 1 [("this", .vTok ⟨"1", "NUMBER"⟩)])
        = pyHashE (.mk .literal 2 [("this", .vTok ⟨"1", "NUMBER"⟩)]) :=
  ⟨claim_C10 (.mk .expression 0 [("this", .vStr "a")])
      (.mk .expression 7 [("this", .vStr "a")]) rfl rfl rfl,
    claim_C10 (.mk .literal 1 [("this", .vTok ⟨"1", "NUMBER"⟩)])
      (.mk .literal 2 [("this", .vTok ⟨"1", "NUMBER"⟩)]) rfl rfl rfl⟩
